import Mathlib

/-!
# Verification of the `brics` toolkit

Shallow embedding of the `brics` Brainfuck toolkit (tokenizer, program
model, interpreter, and C emitter) together with proofs about its
specification claims.

Sources embedded:
* `src/brics/instructions.py` — the `Instruction` enumeration,
* `src/brics/program.py` — the `Program` model (bracket scan, jump map,
  header trimming, `get_other_bound`),
* `src/brics/process.py` — the interpreter (`run_program`, `_ProcessMemory`),
* `src/brics/relex.py` — the token table (`Relex`) and tokenizer,
* `src/brics/compiler.py` — structure of the emitted C program (its runtime
  semantics is modelled from the spec, since the C language is external).
-/

namespace Brics

/-! ## Instructions (`instructions.py`) -/

/-- The eight Brainfuck instructions (`Instruction` in `instructions.py`). -/
inductive Instr where
  | next
  | previous
  | add
  | subtract
  | beginLoop
  | endLoop
  | input
  | output
deriving DecidableEq, Repr

/-- `Instruction.to_char`. -/
def Instr.to_char : Instr → Char
  | .next => Char.ofNat 62       -- >
  | .previous => Char.ofNat 60   -- <
  | .add => Char.ofNat 43        -- +
  | .subtract => Char.ofNat 45   -- -
  | .beginLoop => Char.ofNat 91  -- [
  | .endLoop => Char.ofNat 93    -- ]
  | .input => Char.ofNat 44      -- ,
  | .output => Char.ofNat 46     -- .

/-- `Instruction.from_char`, on a single character. -/
def Instr.from_char_single (c : Char) : Option Instr :=
  if c = Char.ofNat 62 then some .next
  else if c = Char.ofNat 60 then some .previous
  else if c = Char.ofNat 43 then some .add
  else if c = Char.ofNat 45 then some .subtract
  else if c = Char.ofNat 91 then some .beginLoop
  else if c = Char.ofNat 93 then some .endLoop
  else if c = Char.ofNat 44 then some .input
  else if c = Char.ofNat 46 then some .output
  else none

/-- `Instruction.from_char`: accepts a string (list of characters) and
returns `none` unless it is a single valid instruction character. -/
def Instr.from_char : List Char → Option Instr
  | [c] => Instr.from_char_single c
  | _ => none

/-- `Instruction.all_instructions()`, in declaration order. -/
def allInstructions : List Instr :=
  [.next, .previous, .add, .subtract, .beginLoop, .endLoop, .input, .output]

instance : Fintype Instr :=
  ⟨⟨[Instr.next, .previous, .add, .subtract, .beginLoop, .endLoop, .input, .output],
    by decide⟩, by intro x; cases x <;> decide⟩

/-! ## Errors (`exceptions.py`) -/

/-- `ParsingError`: carries a character index and a message. -/
structure ParsingError where
  char : Nat
  message : String
deriving DecidableEq, Repr

/-- `RelexParsingError`: carries an optional 1-based line number and a message. -/
structure RelexParsingError where
  line : Option Nat
  message : String
deriving DecidableEq, Repr

/-- `BfRuntimeError` (raised defensively by `get_other_bound` and
`run_program`): carries a program index and a message. -/
structure BfRuntimeError where
  idx : Nat
  message : String
deriving DecidableEq, Repr

/-! ## Bracket scan and jump map (`program.py`)

The instruction sequence of a `Program` is a `List (Option Instr)`; the
`none` element is the end-of-program sentinel appended by the constructor.

`Program._make_or_get_first_bounds` is a single Python function
parametrized by the `_get_first` flag; its two behaviours are embedded as
the two specializations `scanBounds` (`_get_first=False`, used by
`_make_bounds`) and `scanFirstBounds` (`_get_first=True`, used by
`_get_first_bounds`).  The Python stack (`list.append` / `list.pop`) is
embedded with the head of the list as the most recently pushed element. -/

/-- One step of `_make_or_get_first_bounds` with `_get_first=False`:
a left-to-right scan carrying the current index, the stack of pending
`BeginLoop` indices (head = newest), and the accumulated pairs.  The scan
stops at the first `none` (sentinel) or at the end of the sequence; an
`EndLoop` with an empty stack fails at the current index, and a non-empty
final stack fails at the most recently pushed index (`stack.pop()`). -/
def scanBounds : List (Option Instr) → Nat → List Nat → List (Nat × Nat) →
    Except ParsingError (List (Nat × Nat))
  | [], _, stack, out =>
    match stack with
    | [] => .ok out
    | top :: _ => .error ⟨top, "Unmatched [ instruction"⟩
  | none :: _, _, stack, out =>
    match stack with
    | [] => .ok out
    | top :: _ => .error ⟨top, "Unmatched [ instruction"⟩
  | some i :: rest, idx, stack, out =>
    match i with
    | .beginLoop => scanBounds rest (idx + 1) (idx :: stack) out
    | .endLoop =>
      match stack with
      | [] => .error ⟨idx, "Unmatched ] instruction"⟩
      | top :: s => scanBounds rest (idx + 1) s ((top, idx) :: out)
    | _ => scanBounds rest (idx + 1) stack out

/-- `Program._make_bounds`. -/
def makeBounds (instrs : List (Option Instr)) : Except ParsingError (List (Nat × Nat)) :=
  scanBounds instrs 0 [] []

/-- `min(output, key=lambda t: t[0], default=None)`: the pair with the
smallest left index. -/
def minByLeft : List (Nat × Nat) → Option (Nat × Nat)
  | [] => none
  | p :: rest => some (rest.foldl (fun a b => if b.1 < a.1 then b else a) p)

/-- `_make_or_get_first_bounds` with `_get_first=True`: as `scanBounds`,
but as soon as a pop leaves the stack empty, return the pair with the
smallest left index among the pairs collected so far. -/
def scanFirstBounds : List (Option Instr) → Nat → List Nat → List (Nat × Nat) →
    Except ParsingError (Option (Nat × Nat))
  | [], _, stack, _ =>
    match stack with
    | [] => .ok none
    | top :: _ => .error ⟨top, "Unmatched [ instruction"⟩
  | none :: _, _, stack, _ =>
    match stack with
    | [] => .ok none
    | top :: _ => .error ⟨top, "Unmatched [ instruction"⟩
  | some i :: rest, idx, stack, out =>
    match i with
    | .beginLoop => scanFirstBounds rest (idx + 1) (idx :: stack) out
    | .endLoop =>
      match stack with
      | [] => .error ⟨idx, "Unmatched ] instruction"⟩
      | top :: s =>
        if s.isEmpty then .ok (minByLeft ((top, idx) :: out))
        else scanFirstBounds rest (idx + 1) s ((top, idx) :: out)
    | _ => scanFirstBounds rest (idx + 1) stack out

/-- `Program._get_first_bounds`. -/
def getFirstBounds (instrs : List (Option Instr)) :
    Except ParsingError (Option (Nat × Nat)) :=
  scanFirstBounds instrs 0 [] []

/-- `Program._trim_header_once`: if the first complete top-level bracket
pair begins at index 0, remove everything up to and including its matching
`EndLoop` and report `some` of the remainder; otherwise report `none`
(no trim performed). -/
def trimHeaderOnce (instrs : List (Option Instr)) :
    Except ParsingError (Option (List (Option Instr))) :=
  match getFirstBounds instrs with
  | .error e => .error e
  | .ok none => .ok none
  | .ok (some (li, ri)) =>
    if li ≠ 0 then .ok none
    else .ok (some (instrs.drop (ri + 1)))

/-- `Program._trim_headers` (`while self._trim_header_once(): pass`),
fuel-indexed so that the recursion is structural; `none` marks fuel
exhaustion, which `trimHeadersFuel_total` below proves unreachable for
fuel `instrs.length + 1`. -/
def trimHeadersFuel : Nat → List (Option Instr) →
    Option (Except ParsingError (List (Option Instr)))
  | 0, _ => none
  | fuel + 1, instrs =>
    match trimHeaderOnce instrs with
    | .error e => some (.error e)
    | .ok none => some (.ok instrs)
    | .ok (some rest) => trimHeadersFuel fuel rest

/-- `Program._trim_headers` with sufficient fuel. -/
def trimHeaders (instrs : List (Option Instr)) :
    Option (Except ParsingError (List (Option Instr))) :=
  trimHeadersFuel (instrs.length + 1) instrs

/-- The validated `Program` data: its instruction sequence (ending in the
`none` sentinel) and its jump map `loop_boundaries`. -/
structure BfProgram where
  instructions : List (Option Instr)
  loop_boundaries : List (Nat × Nat)
deriving DecidableEq, Repr

/-- `Program.__init__` (minus file identity): append the sentinel, trim
headers when `optimise` is set, then validate and compute the jump map.
The fuel-exhaustion branch of `trimHeaders` defaults to the untrimmed
sequence; `trimHeadersFuel_total` proves it unreachable. -/
def mkProgram (tokens : List Instr) (optimise : Bool) :
    Except ParsingError BfProgram :=
  let instrs0 := tokens.map some ++ [none]
  let instrsE : Except ParsingError (List (Option Instr)) :=
    if optimise then
      match trimHeaders instrs0 with
      | none => .ok instrs0
      | some r => r
    else .ok instrs0
  match instrsE with
  | .error e => .error e
  | .ok instrs =>
    match makeBounds instrs with
    | .error e => .error e
    | .ok bounds => .ok ⟨instrs, bounds⟩

/-- `Program.get_other_bound`: linear scan of the jump map for a pair
containing `idx`, returning the other side, or a `BfRuntimeError`. -/
def get_other_bound : List (Nat × Nat) → Nat → Except BfRuntimeError Nat
  | [], idx => .error ⟨idx, "Bound lookup failed"⟩
  | (left, right) :: rest, idx =>
    if left = idx then .ok right
    else if right = idx then .ok left
    else get_other_bound rest idx

/-! ## Interpreter (`process.py`)

`_ProcessMemory` is a dictionary keyed by `idx % size` holding values in
`[0, cell_size)`; a read of an absent key yields 0.  It is embedded as a
total function `Nat → Nat` from wrapped keys to stored values (absent keys
hold 0; `__setitem__`'s `if val == 0: __delitem__` branch stores a literal
0, observationally identical).  `run_program` uses the standard memory
with `size = 30000`, `cell_size = 256`. -/

def tapeLength : Nat := 30000
def cellSize : Nat := 256

/-- `_ProcessMemory.__getitem__`: `self._data.get(idx % self._size, 0) % self._cell_size`. -/
def memGet (mem : Nat → Nat) (idx : Int) : Nat :=
  mem (idx.emod tapeLength).toNat % cellSize

/-- `_ProcessMemory.__setitem__`: stores `val % self._cell_size` at key
`idx % self._size`. -/
def memSet (mem : Nat → Nat) (idx : Int) (val : Int) : Nat → Nat :=
  fun k => if k = (idx.emod tapeLength).toNat then (val.emod cellSize).toNat else mem k

/-- Interpreter state: the program pointer, the data pointer (a Python
`int`, never wrapped by the interpreter itself), the memory dictionary,
the remaining input bytes, and the output bytes written so far. -/
structure ProcState where
  program_ptr : Nat
  data_ptr : Int
  mem : Nat → Nat
  inputLeft : List Nat
  outputSoFar : List Nat

/-- Result of dispatching a single iteration of `run_program`'s loop. -/
inductive StepRes where
  | cont (s : ProcState)
  | halt (s : ProcState)
  | graceful (s : ProcState)
  | failed (e : BfRuntimeError)

/-- One iteration of `run_program`'s `while True` loop: fetch the
instruction at `program_ptr` (out of range fails with `BfRuntimeError`),
dispatch it, and advance `program_ptr` by 1 (except on sentinel `break`
and on the graceful end-of-input exit, which leave the loop). -/
def step (prog : BfProgram) (s : ProcState) : StepRes :=
  match prog.instructions.get? s.program_ptr with
  | none =>
    .failed ⟨s.program_ptr,
      "Program pointer out-of-bounds (valid range: 0 - " ++
        toString (prog.instructions.length - 1) ++ ")"⟩
  | some none => .halt s
  | some (some i) =>
    match i with
    | .next => .cont { s with program_ptr := s.program_ptr + 1, data_ptr := s.data_ptr + 1 }
    | .previous => .cont { s with program_ptr := s.program_ptr + 1, data_ptr := s.data_ptr - 1 }
    | .add =>
      .cont { s with
              program_ptr := s.program_ptr + 1,
              mem := memSet s.mem s.data_ptr ((memGet s.mem s.data_ptr : Int) + 1) }
    | .subtract =>
      .cont { s with
              program_ptr := s.program_ptr + 1,
              mem := memSet s.mem s.data_ptr ((memGet s.mem s.data_ptr : Int) - 1) }
    | .beginLoop =>
      if memGet s.mem s.data_ptr = 0 then
        match get_other_bound prog.loop_boundaries s.program_ptr with
        | .error e => .failed e
        | .ok tgt => .cont { s with program_ptr := tgt + 1 }
      else .cont { s with program_ptr := s.program_ptr + 1 }
    | .endLoop =>
      if memGet s.mem s.data_ptr ≠ 0 then
        match get_other_bound prog.loop_boundaries s.program_ptr with
        | .error e => .failed e
        | .ok tgt => .cont { s with program_ptr := tgt + 1 }
      else .cont { s with program_ptr := s.program_ptr + 1 }
    | .input =>
      match s.inputLeft with
      | [] => .graceful s
      | b :: rest =>
        .cont { s with
                program_ptr := s.program_ptr + 1,
                mem := memSet s.mem s.data_ptr (b : Int),
                inputLeft := rest }
    | .output =>
      .cont { s with
              program_ptr := s.program_ptr + 1,
              outputSoFar := s.outputSoFar ++ [memGet s.mem s.data_ptr] }

/-- Result of a bounded run of `run_program`. -/
inductive RunResult where
  | halted (s : ProcState)
  | gracefulExit (s : ProcState)
  | failed (e : BfRuntimeError)
  | outOfFuel (s : ProcState)

/-- Whether the run raised `BfRuntimeError`. -/
def RunResult.isFailed : RunResult → Bool
  | .failed _ => true
  | _ => false

/-- Observable output of a completed run (`run_program` terminates
normally both on the sentinel `break` and on the graceful exit, which
`main` catches silently). -/
def RunResult.finalOutput : RunResult → Option (List Nat)
  | .halted s => some s.outputSoFar
  | .gracefulExit s => some s.outputSoFar
  | _ => none

/-- `run_program`'s loop, bounded by fuel. -/
def runFrom (prog : BfProgram) : Nat → ProcState → RunResult
  | 0, s => .outOfFuel s
  | fuel + 1, s =>
    match step prog s with
    | .cont s' => runFrom prog fuel s'
    | .halt s' => .halted s'
    | .graceful s' => .gracefulExit s'
    | .failed e => .failed e

/-- `run_program`'s initial state: `program_ptr = 0`, zeroed memory,
`data_ptr = 0`. -/
def initState (input : List Nat) : ProcState :=
  ⟨0, 0, fun _ => 0, input, []⟩

/-- `run_program`, reading from the given input byte list. -/
def runProgram (prog : BfProgram) (fuel : Nat) (input : List Nat) : RunResult :=
  runFrom prog fuel (initState input)

/-! ## Token table and tokenizer (`relex.py`)

The `instruction_map` dict is embedded as an association list in insertion
order (Python dicts preserve insertion order, and updating an existing key
keeps its position).  Tokens are lists of characters. -/

/-- A `Relex`: a name and the ordered instruction-to-token mapping. -/
structure Relex where
  name : String
  instruction_map : List (Instr × List Char)
deriving DecidableEq, Repr

/-- Python dict `m[k] = v`: update the value in place if the key exists,
otherwise append the binding. -/
def dictInsert (m : List (Instr × List Char)) (k : Instr) (v : List Char) :
    List (Instr × List Char) :=
  if m.any (fun p => p.1 = k) then
    m.map (fun p => if p.1 = k then (k, v) else p)
  else m ++ [(k, v)]

/-- Python dict lookup `m[k]` / `m.get(k)`. -/
def dictGet (m : List (Instr × List Char)) (k : Instr) : Option (List Char) :=
  match m.find? (fun p => p.1 = k) with
  | some p => some p.2
  | none => none

/-- The inner `for instr_enum, instr_text in self.instruction_map.items()`
loop of `Relex.text_to_instrs`: try each pair in declared order and return
the first whose token equals the upcoming characters
(`_buf_peek(text, len(instr_text)) == instr_text`; the peek returns at
most `len(instr_text)` characters, so a truncated peek at end of input
never equals the token). -/
def findTok : List (Instr × List Char) → List Char → Option (Instr × List Char)
  | [], _ => none
  | (i, tok) :: rest, text =>
    if text.take tok.length = tok then some (i, tok) else findTok rest text

/-- `Relex.text_to_instrs`: while input remains, emit the first matching
opcode and advance past its token, otherwise advance by one character.
Fuel-indexed (a table containing an empty token would loop forever in the
Python generator); `none` marks fuel exhaustion, proved unreachable for
fuel `text.length + 1` when every token is non-empty. -/
def tokenizeFuel : Nat → List (Instr × List Char) → List Char → Option (List Instr)
  | 0, _, _ => none
  | fuel + 1, table, text =>
    match text with
    | [] => some []
    | _ =>
      match findTok table text with
      | some (i, tok) => (tokenizeFuel fuel table (text.drop tok.length)).map (i :: ·)
      | none => tokenizeFuel fuel table (text.drop 1)

/-- `Relex.text_to_instrs` with sufficient fuel. -/
def text_to_instrs (table : List (Instr × List Char)) (text : List Char) :
    Option (List Instr) :=
  tokenizeFuel (text.length + 1) table text

/-- The quoted rendering `'c'` of a canonical character used in the
inexhaustiveness message, as a character list. -/
def quoteChar (c : Char) : List Char :=
  [Char.ofNat 39, c, Char.ofNat 39]

/-- Python string comparison: lexicographic on code points, a prefix
ordering before anything it is a prefix of. -/
def strLe : List Char → List Char → Bool
  | [], _ => true
  | _ :: _, [] => false
  | c :: cs, d :: ds =>
    if c.toNat < d.toNat then true
    else if d.toNat < c.toNat then false
    else strLe cs ds

/-- Insertion into a sorted list of strings. -/
def insertStr (s : List Char) : List (List Char) → List (List Char)
  | [] => [s]
  | t :: rest => if strLe s t then s :: t :: rest else t :: insertStr s rest

/-- Python `sorted` over the quoted strings. -/
def sortStrs : List (List Char) → List (List Char)
  | [] => []
  | s :: rest => insertStr s (sortStrs rest)

/-- Insertion into a sorted list of characters. -/
def insertChar (c : Char) : List Char → List Char
  | [] => [c]
  | d :: rest => if c.toNat ≤ d.toNat then c :: d :: rest else d :: insertChar c rest

/-- Python `sorted` for lists of characters (code-point order). -/
def sortChars : List Char → List Char
  | [] => []
  | c :: rest => insertChar c (sortChars rest)

/-- `", ".join(...)`. -/
def joinCommaSep : List (List Char) → List Char
  | [] => []
  | [s] => s
  | s :: rest => s ++ [Char.ofNat 44, Char.ofNat 32] ++ joinCommaSep rest

/-- `set(Instruction.all_instructions()) - set(instruction_map.keys())`,
enumerated in canonical declaration order. -/
def missingInstrs (keys : List Instr) : List Instr :=
  allInstructions.filter (fun i => ¬ keys.contains i)

/-- The message built by `Relex.__init__` for an inexhaustive map:
`sorted(f"'{i.to_char()}'" for i in missing)` joined with `", "`. -/
def relexMissingMessage (keys : List Instr) : String :=
  "Relex definition is inexhaustive, missing instruction(s): " ++
    String.mk (joinCommaSep (sortStrs ((missingInstrs keys).map (fun i => quoteChar i.to_char))))

/-- `Relex.__init__`: fails with a `RelexParsingError` carrying no line
number when the map does not cover all eight instructions. -/
def mkRelex (name : String) (imap : List (Instr × List Char)) :
    Except RelexParsingError Relex :=
  if missingInstrs (imap.map Prod.fst) = [] then .ok ⟨name, imap⟩
  else .error ⟨none, relexMissingMessage (imap.map Prod.fst)⟩

/-- `Relex.standard()`: the identity table, in source declaration order. -/
def standardRelex : List (Instr × List Char) :=
  [(.previous, [Char.ofNat 60]),   -- <
   (.next, [Char.ofNat 62]),      -- >
   (.add, [Char.ofNat 43]),       -- +
   (.subtract, [Char.ofNat 45]),  -- -
   (.input, [Char.ofNat 44]),     -- ,
   (.output, [Char.ofNat 46]),    -- .
   (.beginLoop, [Char.ofNat 91]), -- [
   (.endLoop, [Char.ofNat 93])]   -- ]

/-! ### Relex definition files (`Relex.from_relex_file`) -/

/-- Python whitespace characters stripped by `str.strip()`. -/
def isPySpace (c : Char) : Bool :=
  c = Char.ofNat 32 ∨ c = Char.ofNat 9 ∨ c = Char.ofNat 10 ∨
    c = Char.ofNat 13 ∨ c = Char.ofNat 11 ∨ c = Char.ofNat 12

/-- Python `str.strip()`. -/
def pyStrip (l : List Char) : List Char :=
  ((l.dropWhile isPySpace).reverse.dropWhile isPySpace).reverse

/-- Python `str.partition(" ")`: split at the first space character,
returning (before, separator, after); the separator is empty when no
space occurs. -/
def partitionSpace : List Char → List Char × List Char × List Char
  | [] => ([], [], [])
  | c :: rest =>
    if c = Char.ofNat 32 then ([], [c], rest)
    else
      let (a, sep, b) := partitionSpace rest
      (c :: a, sep, b)

/-- The filtered, stripped directive lines of a relex definition file:
`(idx, line.strip().partition(" "))` for each line that is neither blank
nor a `#` comment after stripping. -/
def directiveLines (lines : List (List Char)) : List (Nat × (List Char × List Char × List Char)) :=
  ((lines.enum.filter (fun p =>
      ¬ (pyStrip p.2).head? = some (Char.ofNat 35) ∧ (pyStrip p.2).length ≠ 0)).map
    (fun p => (p.1, partitionSpace (pyStrip p.2))))

/-- The key half of a directive line (valid only when it is a single
known instruction character). -/
def lineKey (l : Nat × (List Char × List Char × List Char)) : Option Instr :=
  Instr.from_char l.2.1

/-- The token half of a directive line, stripped. -/
def lineTok (l : Nat × (List Char × List Char × List Char)) : List Char :=
  pyStrip l.2.2.2

/-- The `for idx, (standard_instr, sep, relex_instr) in parsed_lines` loop
of `Relex.from_relex_file`: reject an empty token value or an unknown
instruction key (each with the 1-based line number), otherwise insert
into the map (a repeated key overwrites the earlier value). -/
def buildRelexMap : List (Nat × (List Char × List Char × List Char)) →
    List (Instr × List Char) → Except RelexParsingError (List (Instr × List Char))
  | [], m => .ok m
  | l :: rest, m =>
    if (pyStrip l.2.2.2).length = 0 then
      .error ⟨some (l.1 + 1), "Missing relex value"⟩
    else
      match Instr.from_char l.2.1 with
      | none => .error ⟨some (l.1 + 1), "Attempted to map to unknown instruction key"⟩
      | some instr => buildRelexMap rest (dictInsert m instr (pyStrip l.2.2.2))

/-- `Relex.from_relex_file` (minus file identity): parse the directive
lines into a map, then run the exhaustiveness check of `Relex.__init__`. -/
def from_relex_lines (name : String) (lines : List (List Char)) :
    Except RelexParsingError Relex :=
  match buildRelexMap (directiveLines lines) [] with
  | .error e => .error e
  | .ok m => mkRelex name m

/-! ## Semantics of the emitted C program (`compiler.py`)

`compile_to_c` emits one C statement per non-sentinel instruction, in
order: `ptr = MOD(ptr + 1, MEMORY_LENGTH);` / `ptr = MOD(ptr - 1,
MEMORY_LENGTH);` for moves (with `MOD(a, b) = (a % b + b) % b` and
`MEMORY_LENGTH = 30000`), `mem[ptr]++;` / `mem[ptr]--;` on a `char` cell,
`mem[ptr] = getchar();`, `putchar(mem[ptr]);`, and `while (mem[ptr]) {`
/ `};` for the loop brackets, over `char mem[MEMORY_LENGTH];` (an
*uninitialized* automatic array) with `int ptr = 0;`.

Modelled from the spec: the runtime semantics of that emitted C source
(the C language itself is external to the repository).  C `%` truncates
toward zero (`Int.tmod`); a `char` cell holds an 8-bit pattern, so stored
values are taken modulo 256; `getchar()` returns `EOF = -1` once input is
exhausted and execution continues; `putchar` writes the low byte of its
argument.  The uninitialized tape is modelled by an arbitrary initial
memory function. -/

/-- The emitted `MOD(a, b)` macro: `(a % b + b) % b` with C `%`. -/
def cMOD (a b : Int) : Int := (a.tmod b + b).tmod b

/-- Statements of the emitted C program: the six primitive statements and
the `while (mem[ptr]) { ... }` block. -/
inductive CStmt where
  | cnext
  | cprev
  | cadd
  | csub
  | cin
  | cout
  | cwhile (body : List CStmt)

/-- State of the emitted C program: `ptr`, the `mem` byte array (stored
bit patterns 0–255; the initial contents are arbitrary because the array
is uninitialized), the remaining input, and the bytes written so far. -/
structure CState where
  ptr : Int
  mem : Nat → Nat
  inputLeft : List Nat
  outputSoFar : List Nat

/-- Update one cell of the C byte array. -/
def cMemSet (mem : Nat → Nat) (k : Nat) (v : Nat) : Nat → Nat :=
  fun j => if j = k then v else mem j

/-- Semantics of one primitive emitted statement. -/
def cPrimStep : CStmt → CState → CState
  | .cnext, s => { s with ptr := cMOD (s.ptr + 1) 30000 }
  | .cprev, s => { s with ptr := cMOD (s.ptr - 1) 30000 }
  | .cadd, s => { s with mem := cMemSet s.mem s.ptr.toNat ((s.mem s.ptr.toNat + 1) % 256) }
  | .csub, s => { s with mem := cMemSet s.mem s.ptr.toNat ((s.mem s.ptr.toNat + 255) % 256) }
  | .cin, s =>
    match s.inputLeft with
    | [] => { s with mem := cMemSet s.mem s.ptr.toNat 255 }  -- getchar() = EOF = -1, as a char
    | b :: rest => { s with mem := cMemSet s.mem s.ptr.toNat (b % 256), inputLeft := rest }
  | .cout, s => { s with outputSoFar := s.outputSoFar ++ [s.mem s.ptr.toNat] }
  | .cwhile _, s => s

/-- Execution of a statement list, fuel-bounded (`none` = fuel exhausted).
A `while` whose test is non-zero runs its body and then retries the same
`while`; a zero test skips to the rest of the block. -/
def cExecList : Nat → List CStmt → CState → Option CState
  | 0, _, _ => none
  | _ + 1, [], s => some s
  | fuel + 1, stmt :: rest, s =>
    match stmt with
    | .cwhile body =>
      if s.mem s.ptr.toNat ≠ 0 then
        match cExecList fuel body s with
        | none => none
        | some s' => cExecList fuel (CStmt.cwhile body :: rest) s'
      else cExecList fuel rest s
    | _ => cExecList fuel rest (cPrimStep stmt s)

/-- The block structure of the emitted statements: `[` opens a `while`
block, `]` closes it, every other instruction is its primitive statement.
Fuel-indexed bracket parsing; returns the parsed block and the
instructions following the matching `]` (or `none` for unbalanced input,
which a validated `Program` never produces). -/
def parseCBlock : Nat → List Instr → Option (List CStmt × List Instr)
  | 0, _ => none
  | _ + 1, [] => some ([], [])
  | fuel + 1, i :: rest =>
    match i with
    | .endLoop => some ([], rest)
    | .beginLoop =>
      match parseCBlock fuel rest with
      | none => none
      | some (body, rest') =>
        match parseCBlock fuel rest' with
        | none => none
        | some (tail, rest'') => some (CStmt.cwhile body :: tail, rest'')
    | _ =>
      match parseCBlock fuel rest with
      | none => none
      | some (tail, rest') =>
        let stmt := match i with
          | .next => CStmt.cnext
          | .previous => CStmt.cprev
          | .add => CStmt.cadd
          | .subtract => CStmt.csub
          | .input => CStmt.cin
          | _ => CStmt.cout
        some (stmt :: tail, rest')

/-- The emitted C program for a token sequence, as structured statements. -/
def emitC (tokens : List Instr) : Option (List CStmt) :=
  match parseCBlock (tokens.length + 1) tokens with
  | some (block, []) => some block
  | _ => none

/-- Run the emitted C program from `ptr = 0` with the given (arbitrary,
uninitialized) initial tape contents and input, observing its output. -/
def cRunOutput (tokens : List Instr) (initMem : Nat → Nat) (fuel : Nat)
    (input : List Nat) : Option (List Nat) :=
  match emitC tokens with
  | none => none
  | some block =>
    match cExecList fuel block ⟨0, initMem, input, []⟩ with
    | none => none
    | some s => some s.outputSoFar

/-! ## Reference characterizations used to state claims -/

/-- Depth-counting reference scan: the index of the first `EndLoop`
encountered with no pending `BeginLoop` (the first unmatched `]`). -/
def firstUnmatchedEnd : List Instr → Nat → Nat → Option Nat
  | [], _, _ => none
  | i :: rest, idx, d =>
    match i with
    | .endLoop => if d = 0 then some idx else firstUnmatchedEnd rest (idx + 1) (d - 1)
    | .beginLoop => firstUnmatchedEnd rest (idx + 1) (d + 1)
    | _ => firstUnmatchedEnd rest (idx + 1) d

/-- Reference scan for the stack of pending `BeginLoop` indices left over
after the whole sequence is processed (head = most recently pushed).
Meaningful when `firstUnmatchedEnd` finds no unmatched `]`. -/
def pendingStarts : List Instr → Nat → List Nat → List Nat
  | [], _, stack => stack
  | i :: rest, idx, stack =>
    match i with
    | .beginLoop => pendingStarts rest (idx + 1) (idx :: stack)
    | .endLoop =>
      match stack with
      | [] => []
      | _ :: s => pendingStarts rest (idx + 1) s
    | _ => pendingStarts rest (idx + 1) stack

/-- Modelled from the spec: the inexhaustiveness message "enumerates the
missing canonical characters in sorted order" — the missing characters
themselves sorted, then rendered quoted and comma-separated.  (The code
instead sorts the already-quoted strings; `brics_C8` proves the two
agree.) -/
def specMissingMessage (keys : List Instr) : String :=
  "Relex definition is inexhaustive, missing instruction(s): " ++
    String.mk (joinCommaSep ((sortChars ((missingInstrs keys).map Instr.to_char)).map quoteChar))


/-! # Theorems -/

/-- Reading the head of a dropped suffix. -/
theorem drop_cons_get {α : Type} (l : List α) (idx : Nat) (x : α) (rest : List α)
    (h : l.drop idx = x :: rest) :
    l.get? idx = some x ∧ l.drop (idx + 1) = rest := by
  constructor
  · have h0 : (l.drop idx).get? 0 = some x := by rw [h]; rfl
    rw [List.get?_drop] at h0; simpa using h0
  · have h1 : (l.drop idx).drop 1 = rest := by rw [h]; rfl
    rw [List.drop_drop] at h1; simpa using h1

/-- The fold inside `minByLeft` picks an element of the list. -/
theorem minByLeft_foldl_mem (p : Nat × Nat) (rest : List (Nat × Nat)) :
    rest.foldl (fun a b => if b.1 < a.1 then b else a) p ∈ p :: rest := by
  induction rest generalizing p with
  | nil => simp
  | cons q rest ih =>
    simp only [List.foldl_cons]
    by_cases hq : q.1 < p.1
    · simp only [if_pos hq]
      exact List.mem_cons_of_mem _ (ih q)
    · simp only [if_neg hq]
      rcases List.mem_cons.mp (ih p) with h | h
      · exact List.mem_cons.mpr (Or.inl h)
      · exact List.mem_cons_of_mem _ (List.mem_cons_of_mem _ h)

/-- `minByLeft` returns an element of its argument. -/
theorem minByLeft_mem (l : List (Nat × Nat)) (p : Nat × Nat) (h : minByLeft l = some p) :
    p ∈ l := by
  cases l with
  | nil => simp [minByLeft] at h
  | cons q rest =>
    simp only [minByLeft, Option.some.injEq] at h
    have := minByLeft_foldl_mem q rest
    rw [h] at this
    exact this

/-- Master invariant of the jump-map scan: when
`scanBounds (ts.map some ++ [none]) idx stack out` succeeds starting from
a state satisfying the scan invariants (`ts` is the part of `tokens` not
yet scanned, stack entries are strictly descending pending `BeginLoop`
indices, collected pairs point at matching bracket instructions with
distinct lefts and distinct rights, and every already-scanned bracket is
accounted for), the resulting jump map pairs a `BeginLoop` with an
`EndLoop` at larger index, has pairwise-distinct lefts and rights, and
contains every bracket index of `tokens`. -/
theorem scanBounds_ok_spec (tokens : List Instr) :
    ∀ (ts : List Instr) (idx : Nat) (stack : List Nat) (out res : List (Nat × Nat)),
    scanBounds (ts.map some ++ [none]) idx stack out = .ok res →
    tokens.drop idx = ts →
    stack.Pairwise (· > ·) →
    (∀ s ∈ stack, s < idx ∧ tokens.get? s = some Instr.beginLoop) →
    (∀ p ∈ out, p.1 < p.2 ∧ p.2 < idx ∧ tokens.get? p.1 = some Instr.beginLoop ∧
      tokens.get? p.2 = some Instr.endLoop) →
    (out.map Prod.fst).Nodup →
    (out.map Prod.snd).Nodup →
    (∀ s ∈ stack, s ∉ out.map Prod.fst) →
    (∀ j, j < idx → tokens.get? j = some Instr.beginLoop → j ∈ stack ∨ j ∈ out.map Prod.fst) →
    (∀ j, j < idx → tokens.get? j = some Instr.endLoop → j ∈ out.map Prod.snd) →
    ((∀ p ∈ res, p.1 < p.2 ∧ tokens.get? p.1 = some Instr.beginLoop ∧
        tokens.get? p.2 = some Instr.endLoop) ∧
      (res.map Prod.fst).Nodup ∧ (res.map Prod.snd).Nodup ∧
      (∀ j, tokens.get? j = some Instr.beginLoop → j ∈ res.map Prod.fst) ∧
      (∀ j, tokens.get? j = some Instr.endLoop → j ∈ res.map Prod.snd)) := by
  intro ts
  induction ts with
  | nil =>
    intro idx stack out res hscan hdrop hpw hst hout hfst hsnd hdisj hcb hce
    cases stack with
    | nil =>
      simp only [List.map_nil, List.nil_append, scanBounds, Except.ok.injEq] at hscan
      subst hscan
      have hlen : tokens.length ≤ idx := by simpa using List.drop_eq_nil_iff.mp hdrop
      refine ⟨fun p hp => ⟨(hout p hp).1, (hout p hp).2.2⟩, hfst, hsnd, ?_, ?_⟩
      · intro j hj
        have hlt : j < tokens.length := (List.get?_eq_some.mp hj).1
        rcases hcb j (by omega) hj with h | h
        · simp at h
        · exact h
      · intro j hj
        have hlt : j < tokens.length := (List.get?_eq_some.mp hj).1
        exact hce j (by omega) hj
    | cons top s =>
      simp [scanBounds] at hscan
  | cons i rest ih =>
    intro idx stack out res hscan hdrop hpw hst hout hfst hsnd hdisj hcb hce
    obtain ⟨hgi, hdrop'⟩ := drop_cons_get tokens idx i rest hdrop
    cases i
    case beginLoop =>
      simp only [List.map_cons, List.cons_append, scanBounds] at hscan
      refine ih (idx + 1) (idx :: stack) out res hscan hdrop' ?_ ?_ ?_ hfst hsnd ?_ ?_ ?_
      · exact List.Pairwise.cons (fun s hs => (hst s hs).1) hpw
      · intro s hs
        rcases List.mem_cons.mp hs with h | h
        · exact ⟨by omega, by rw [h]; exact hgi⟩
        · exact ⟨Nat.lt_succ_of_lt (hst s h).1, (hst s h).2⟩
      · intro p hp
        exact ⟨(hout p hp).1, Nat.lt_succ_of_lt (hout p hp).2.1, (hout p hp).2.2⟩
      · intro s hs
        rcases List.mem_cons.mp hs with h | h
        · subst h
          intro hmem
          rcases List.mem_map.mp hmem with ⟨p, hp, hfeq⟩
          have := (hout p hp).1
          have := (hout p hp).2.1
          omega
        · exact hdisj s h
      · intro j hj hb
        have : j < idx ∨ j = idx := by omega
        rcases this with h | h
        · rcases hcb j h hb with h2 | h2
          · exact Or.inl (List.mem_cons_of_mem _ h2)
          · exact Or.inr h2
        · exact Or.inl (h ▸ List.mem_cons_self _ _)
      · intro j hj he
        have : j < idx ∨ j = idx := by omega
        rcases this with h | h
        · exact hce j h he
        · subst h; rw [hgi] at he; simp at he
    case endLoop =>
      cases stack with
      | nil => simp [scanBounds] at hscan
      | cons top s =>
        simp only [List.map_cons, List.cons_append, scanBounds] at hscan
        have htop := hst top (List.mem_cons_self _ _)
        have hpw' := List.pairwise_cons.mp hpw
        refine ih (idx + 1) s ((top, idx) :: out) res hscan hdrop' hpw'.2 ?_ ?_ ?_ ?_ ?_ ?_ ?_
        · intro x hx
          exact ⟨Nat.lt_succ_of_lt (hst x (List.mem_cons_of_mem _ hx)).1,
            (hst x (List.mem_cons_of_mem _ hx)).2⟩
        · intro p hp
          rcases List.mem_cons.mp hp with h | h
          · subst h
            exact ⟨htop.1, Nat.lt_succ_self idx, htop.2, hgi⟩
          · exact ⟨(hout p h).1, Nat.lt_succ_of_lt (hout p h).2.1, (hout p h).2.2⟩
        · simp only [List.map_cons]
          exact List.Nodup.cons (hdisj top (List.mem_cons_self _ _)) hfst
        · simp only [List.map_cons]
          refine List.Nodup.cons ?_ hsnd
          intro hmem
          rcases List.mem_map.mp hmem with ⟨p, hp, heq⟩
          have := (hout p hp).2.1
          omega
        · intro x hx
          simp only [List.map_cons, List.mem_cons]
          push_neg
          constructor
          · have := hpw'.1 x hx
            omega
          · exact hdisj x (List.mem_cons_of_mem _ hx)
        · intro j hj hb
          have : j < idx ∨ j = idx := by omega
          rcases this with h | h
          · rcases hcb j h hb with h2 | h2
            · rcases List.mem_cons.mp h2 with h3 | h3
              · exact Or.inr (by simp [h3])
              · exact Or.inl h3
            · exact Or.inr (by simp only [List.map_cons]; exact List.mem_cons_of_mem _ h2)
          · subst h; rw [hgi] at hb; simp at hb
        · intro j hj he
          have : j < idx ∨ j = idx := by omega
          rcases this with h | h
          · exact by simp only [List.map_cons]; exact List.mem_cons_of_mem _ (hce j h he)
          · exact by simp [h]
    all_goals (
      simp only [List.map_cons, List.cons_append, scanBounds] at hscan
      refine ih (idx + 1) stack out res hscan hdrop' hpw ?_ ?_ hfst hsnd hdisj ?_ ?_
      · intro s hs
        exact ⟨Nat.lt_succ_of_lt (hst s hs).1, (hst s hs).2⟩
      · intro p hp
        exact ⟨(hout p hp).1, Nat.lt_succ_of_lt (hout p hp).2.1, (hout p hp).2.2⟩
      · intro j hj hb
        have : j < idx ∨ j = idx := by omega
        rcases this with h | h
        · exact hcb j h hb
        · subst h; rw [hgi] at hb; simp at hb
      · intro j hj he
        have : j < idx ∨ j = idx := by omega
        rcases this with h | h
        · exact hce j h he
        · subst h; rw [hgi] at he; simp at he)

/-- `makeBounds` on a sentinel-terminated token sequence: the jump-map
invariants, from `scanBounds_ok_spec` at the initial scan state. -/
theorem makeBounds_spec (tokens : List Instr) (bounds : List (Nat × Nat))
    (h : makeBounds (tokens.map some ++ [none]) = .ok bounds) :
    (∀ p ∈ bounds, p.1 < p.2 ∧ tokens.get? p.1 = some Instr.beginLoop ∧
        tokens.get? p.2 = some Instr.endLoop) ∧
      (bounds.map Prod.fst).Nodup ∧ (bounds.map Prod.snd).Nodup ∧
      (∀ j, tokens.get? j = some Instr.beginLoop → j ∈ bounds.map Prod.fst) ∧
      (∀ j, tokens.get? j = some Instr.endLoop → j ∈ bounds.map Prod.snd) := by
  refine scanBounds_ok_spec tokens tokens 0 [] [] bounds h (List.drop_zero _) ?_ ?_ ?_ ?_ ?_ ?_ ?_ ?_
  · exact List.Pairwise.nil
  · intro s hs; simp at hs
  · intro p hp; simp at hp
  · simp
  · simp
  · intro s hs; simp at hs
  · intro j hj h2; omega
  · intro j hj h2; omega

/-- A successful `scanFirstBounds` pair lies within the scanned range. -/
theorem scanFirstBounds_lt (ts : List Instr) :
    ∀ (idx : Nat) (stack : List Nat) (out : List (Nat × Nat)) (li ri : Nat),
    scanFirstBounds (ts.map some ++ [none]) idx stack out = .ok (some (li, ri)) →
    (∀ p ∈ out, p.2 < idx) →
    ri < idx + ts.length := by
  induction ts with
  | nil =>
    intro idx stack out li ri h hout
    cases stack <;> simp [scanFirstBounds] at h
  | cons i rest ih =>
    intro idx stack out li ri h hout
    cases i
    case beginLoop =>
      simp only [List.map_cons, List.cons_append, scanFirstBounds] at h
      have := ih (idx + 1) (idx :: stack) out li ri h (fun p hp => Nat.lt_succ_of_lt (hout p hp))
      simpa [Nat.succ_add] using this
    case endLoop =>
      cases stack with
      | nil => simp [scanFirstBounds] at h
      | cons top s =>
        simp only [List.map_cons, List.cons_append, scanFirstBounds] at h
        by_cases hs : s.isEmpty
        · rw [if_pos hs] at h
          simp only [Except.ok.injEq] at h
          have hmem := minByLeft_mem _ _ h
          rcases List.mem_cons.mp hmem with h2 | h2
          · have : ri = idx := congrArg Prod.snd h2
            simp; omega
          · have := hout _ h2
            simp at this ⊢; omega
        · rw [if_neg hs] at h
          have := ih (idx + 1) s ((top, idx) :: out) li ri h ?_
          · simpa [Nat.succ_add] using this
          · intro p hp
            rcases List.mem_cons.mp hp with h2 | h2
            · rw [h2]; exact Nat.lt_succ_self idx
            · exact Nat.lt_succ_of_lt (hout p h2)
    all_goals (
      simp only [List.map_cons, List.cons_append, scanFirstBounds] at h
      have := ih (idx + 1) stack out li ri h (fun p hp => Nat.lt_succ_of_lt (hout p hp))
      simpa [Nat.succ_add] using this)

/-- A successful single header trim strictly shortens the sequence. -/
theorem trimHeaderOnce_shrink (instrs rest : List (Option Instr))
    (h : trimHeaderOnce instrs = .ok (some rest)) :
    rest.length < instrs.length := by
  unfold trimHeaderOnce at h
  split at h
  · simp at h
  · simp at h
  · rename_i li ri hg
    split at h
    · simp at h
    · simp only [Except.ok.injEq, Option.some.injEq] at h
      subst h
      have hne : instrs ≠ [] := by
        intro he
        subst he
        simp [getFirstBounds, scanFirstBounds] at hg
      have : 0 < instrs.length := List.length_pos.mpr hne
      rw [List.length_drop]
      omega

/-- A successful single header trim preserves the sentinel-terminated
shape of the sequence. -/
theorem trimHeaderOnce_shape (ts : List Instr) (rest : List (Option Instr))
    (h : trimHeaderOnce (ts.map some ++ [none]) = .ok (some rest)) :
    ∃ ts' : List Instr, rest = ts'.map some ++ [none] := by
  unfold trimHeaderOnce at h
  split at h
  · simp at h
  · simp at h
  · rename_i li ri hg
    split at h
    · simp at h
    · simp only [Except.ok.injEq, Option.some.injEq] at h
      subst h
      have hri : ri < ts.length := by
        have := scanFirstBounds_lt ts 0 [] [] li ri hg (by intro p hp; simp at hp)
        simpa using this
      refine ⟨ts.drop (ri + 1), ?_⟩
      rw [List.drop_append_eq_append_drop]
      have h1 : (ri + 1) - (ts.map some).length = 0 := by
        simp only [List.length_map]; omega
      rw [h1, List.drop_zero]
      rw [← List.map_drop]

/-- `trimHeadersFuel` preserves the sentinel-terminated shape. -/
theorem trimHeadersFuel_shape :
    ∀ (fuel : Nat) (ts : List Instr) (r : List (Option Instr)),
    trimHeadersFuel fuel (ts.map some ++ [none]) = some (.ok r) →
    ∃ ts' : List Instr, r = ts'.map some ++ [none] := by
  intro fuel
  induction fuel with
  | zero => intro ts r h; simp [trimHeadersFuel] at h
  | succ fuel ih =>
    intro ts r h
    unfold trimHeadersFuel at h
    cases ht : trimHeaderOnce (ts.map some ++ [none]) with
    | error e => rw [ht] at h; simp at h
    | ok v =>
      rw [ht] at h
      cases v with
      | none =>
        simp only [Option.some.injEq, Except.ok.injEq] at h
        exact ⟨ts, h.symm⟩
      | some rest =>
        obtain ⟨ts', hts'⟩ := trimHeaderOnce_shape ts rest ht
        subst hts'
        exact ih ts' r h

/-- The result of `trimHeadersFuel` is a fixed point of `trimHeaderOnce`. -/
theorem trimHeadersFuel_fix :
    ∀ (fuel : Nat) (instrs r : List (Option Instr)),
    trimHeadersFuel fuel instrs = some (.ok r) →
    trimHeaderOnce r = .ok none := by
  intro fuel
  induction fuel with
  | zero => intro instrs r h; simp [trimHeadersFuel] at h
  | succ fuel ih =>
    intro instrs r h
    unfold trimHeadersFuel at h
    cases ht : trimHeaderOnce instrs with
    | error e => rw [ht] at h; simp at h
    | ok v =>
      rw [ht] at h
      cases v with
      | none =>
        simp only [Option.some.injEq, Except.ok.injEq] at h
        rw [← h]; exact ht
      | some rest => exact ih rest r h

/-- The result of `trimHeadersFuel` is a suffix of its input. -/
theorem trimHeadersFuel_suffix :
    ∀ (fuel : Nat) (instrs r : List (Option Instr)),
    trimHeadersFuel fuel instrs = some (.ok r) →
    r.IsSuffix instrs := by
  intro fuel
  induction fuel with
  | zero => intro instrs r h; simp [trimHeadersFuel] at h
  | succ fuel ih =>
    intro instrs r h
    unfold trimHeadersFuel at h
    cases ht : trimHeaderOnce instrs with
    | error e => rw [ht] at h; simp at h
    | ok v =>
      rw [ht] at h
      cases v with
      | none =>
        simp only [Option.some.injEq, Except.ok.injEq] at h
        rw [← h]
      | some rest =>
        have hsub : rest.IsSuffix instrs := by
          unfold trimHeaderOnce at ht
          split at ht
          · simp at ht
          · simp at ht
          · split at ht
            · simp at ht
            · simp only [Except.ok.injEq, Option.some.injEq] at ht
              rw [← ht]
              exact List.drop_suffix _ _
        exact (ih rest r h).trans hsub

/-- Enough fuel makes `trimHeadersFuel` total. -/
theorem trimHeadersFuel_total :
    ∀ (fuel : Nat) (instrs : List (Option Instr)), instrs.length < fuel →
    trimHeadersFuel fuel instrs ≠ none := by
  intro fuel
  induction fuel with
  | zero => intro instrs h; omega
  | succ fuel ih =>
    intro instrs h
    unfold trimHeadersFuel
    cases ht : trimHeaderOnce instrs with
    | error e => simp
    | ok v =>
      cases v with
      | none => simp
      | some rest =>
        have := trimHeaderOnce_shrink instrs rest ht
        exact ih rest (by omega)

/-- `trimHeadersFuel` is fuel-irrelevant once the fuel exceeds the length. -/
theorem trimHeadersFuel_irrel :
    ∀ (f g : Nat) (instrs : List (Option Instr)),
    instrs.length < f → instrs.length < g →
    trimHeadersFuel f instrs = trimHeadersFuel g instrs := by
  intro f
  induction f with
  | zero => intro g instrs h; omega
  | succ f ih =>
    intro g instrs hf hg
    cases g with
    | zero => omega
    | succ g =>
      unfold trimHeadersFuel
      cases ht : trimHeaderOnce instrs with
      | error e => simp
      | ok v =>
        cases v with
        | none => simp
        | some rest =>
          have := trimHeaderOnce_shrink instrs rest ht
          exact ih g rest (by omega) (by omega)

/-- Characterization of a successful `mkProgram`: the instruction list is
a sentinel-terminated token sequence whose validation produced exactly the
stored jump map. -/
theorem mkProgram_spec (tokens : List Instr) (optimise : Bool) (prog : BfProgram)
    (h : mkProgram tokens optimise = .ok prog) :
    ∃ ts : List Instr, prog.instructions = ts.map some ++ [none] ∧
      makeBounds (ts.map some ++ [none]) = .ok prog.loop_boundaries := by
  unfold mkProgram at h
  have hshape : ∀ (ts : List Instr) (bounds : List (Nat × Nat)),
      makeBounds (ts.map some ++ [none]) = .ok bounds →
      prog = BfProgram.mk (ts.map some ++ [none]) bounds →
      ∃ ts2 : List Instr, prog.instructions = ts2.map some ++ [none] ∧
        makeBounds (ts2.map some ++ [none]) = .ok prog.loop_boundaries := by
    intro ts bounds hb hp
    exact ⟨ts, by rw [hp], by rw [hp]; exact hb⟩
  cases optimise with
  | false =>
    dsimp only at h
    rw [if_neg (by decide : ¬(false = true))] at h
    dsimp only at h
    cases hb : makeBounds (tokens.map some ++ [none]) with
    | error e => rw [hb] at h; dsimp only at h; simp at h
    | ok bounds =>
      rw [hb] at h
      dsimp only at h
      simp only [Except.ok.injEq] at h
      exact hshape tokens bounds hb h.symm
  | true =>
    dsimp only at h
    rw [if_pos (by decide : (true = true))] at h
    cases htr : trimHeaders (tokens.map some ++ [none]) with
    | none =>
      rw [htr] at h
      dsimp only at h
      cases hb : makeBounds (tokens.map some ++ [none]) with
      | error e => rw [hb] at h; dsimp only at h; simp at h
      | ok bounds =>
        rw [hb] at h
        dsimp only at h
        simp only [Except.ok.injEq] at h
        exact hshape tokens bounds hb h.symm
    | some tr =>
      rw [htr] at h
      cases tr with
      | error e => dsimp only at h; simp at h
      | ok instrs =>
        obtain ⟨ts', hts'⟩ := trimHeadersFuel_shape _ tokens instrs htr
        subst hts'
        dsimp only at h
        cases hb : makeBounds (ts'.map some ++ [none]) with
        | error e => rw [hb] at h; dsimp only at h; simp at h
        | ok bounds =>
          rw [hb] at h
          dsimp only at h
          simp only [Except.ok.injEq] at h
          exact hshape ts' bounds hb h.symm

/-- Reading a sentinel-terminated sequence below the sentinel. -/
theorem shape_get (ts : List Instr) (j : Nat) (x : Instr) :
    (ts.map some ++ [none]).get? j = some (some x) ↔ ts.get? j = some x := by
  by_cases hj : j < ts.length
  · rw [List.get?_append (by simpa using hj), List.get?_map]
    cases hg : ts.get? j with
    | none => simp
    | some y => simp
  · rw [List.get?_append_right (by simpa using hj)]
    have hn : ts.get? j = none := List.get?_eq_none.mpr (by omega)
    rw [hn]
    cases hc : ([(none : Option Instr)]).get? (j - (ts.map some).length) with
    | none => simp [hc]
    | some v =>
      have : v = none := by
        cases hv : j - (ts.map some).length with
        | zero => rw [hv] at hc; simpa using hc.symm
        | succ k => rw [hv] at hc; simp at hc
      simp [hc, this]

/-- `get_other_bound` finds the right partner of a left index whose value
occurs once among the lefts and never among the rights. -/
theorem get_other_bound_left :
    ∀ (bounds : List (Nat × Nat)) (l r : Nat),
    (l, r) ∈ bounds →
    (bounds.map Prod.fst).Nodup →
    (∀ q ∈ bounds, l ≠ q.2) →
    get_other_bound bounds l = .ok r := by
  intro bounds
  induction bounds with
  | nil => intro l r hmem; simp at hmem
  | cons q rest ih =>
    intro l r hmem hnodup hnr
    obtain ⟨a, b⟩ := q
    by_cases ha : a = l
    · subst ha
      rcases List.mem_cons.mp hmem with h | h
      · obtain ⟨h1, h2⟩ := Prod.mk.inj h
        subst h2
        simp [get_other_bound]
      · exfalso
        have : a ∈ rest.map Prod.fst := List.mem_map_of_mem Prod.fst h
        simp only [List.map_cons, List.nodup_cons] at hnodup
        exact hnodup.1 this
    · have hb : b ≠ l := by
        have := hnr (a, b) (List.mem_cons_self _ _)
        simpa using fun he => this he.symm
      simp only [get_other_bound, if_neg ha, if_neg hb]
      have hmem' : (l, r) ∈ rest := by
        rcases List.mem_cons.mp hmem with h | h
        · exfalso; exact ha (Prod.mk.inj h).1.symm
        · exact h
      refine ih l r hmem' ?_ ?_
      · simp only [List.map_cons, List.nodup_cons] at hnodup
        exact hnodup.2
      · intro p hp
        exact hnr p (List.mem_cons_of_mem _ hp)

/-- `get_other_bound` finds the left partner of a right index whose value
occurs once among the rights and never among the lefts. -/
theorem get_other_bound_right :
    ∀ (bounds : List (Nat × Nat)) (l r : Nat),
    (l, r) ∈ bounds →
    (bounds.map Prod.snd).Nodup →
    (∀ q ∈ bounds, r ≠ q.1) →
    get_other_bound bounds r = .ok l := by
  intro bounds
  induction bounds with
  | nil => intro l r hmem; simp at hmem
  | cons q rest ih =>
    intro l r hmem hnodup hnl
    obtain ⟨a, b⟩ := q
    have ha : a ≠ r := by
      have := hnl (a, b) (List.mem_cons_self _ _)
      simpa using fun he => this he.symm
    by_cases hb : b = r
    · subst hb
      rcases List.mem_cons.mp hmem with h | h
      · obtain ⟨h1, h2⟩ := Prod.mk.inj h
        subst h1
        simp [get_other_bound, if_neg ha]
      · exfalso
        have : b ∈ rest.map Prod.snd := List.mem_map_of_mem Prod.snd h
        simp only [List.map_cons, List.nodup_cons] at hnodup
        exact hnodup.1 this
    · simp only [get_other_bound, if_neg ha, if_neg hb]
      have hmem' : (l, r) ∈ rest := by
        rcases List.mem_cons.mp hmem with h | h
        · exfalso; exact hb (Prod.mk.inj h).2.symm
        · exact h
      refine ih l r hmem' ?_ ?_
      · simp only [List.map_cons, List.nodup_cons] at hnodup
        exact hnodup.2
      · intro p hp
        exact hnl p (List.mem_cons_of_mem _ hp)

/-- An index occurring once among the lefts and never among the rights is
matched by exactly one pair of the jump map. -/
theorem filter_pair_singleton_left :
    ∀ (bounds : List (Nat × Nat)) (j : Nat),
    (bounds.map Prod.fst).Nodup →
    j ∈ bounds.map Prod.fst →
    (∀ q ∈ bounds, q.2 ≠ j) →
    (bounds.filter (fun p => decide (p.1 = j ∨ p.2 = j))).length = 1 := by
  intro bounds
  induction bounds with
  | nil => intro j _ hj; simp at hj
  | cons q rest ih =>
    intro j hnodup hj hnr
    obtain ⟨a, b⟩ := q
    simp only [List.map_cons, List.nodup_cons] at hnodup
    by_cases ha : a = j
    · subst ha
      have hrest : rest.filter (fun p => decide (p.1 = a ∨ p.2 = a)) = [] := by
        rw [List.filter_eq_nil]
        intro p hp
        simp only [decide_eq_true_eq]
        push_neg
        constructor
        · intro he
          exact hnodup.1 (he ▸ List.mem_map_of_mem Prod.fst hp)
        · exact hnr p (List.mem_cons_of_mem _ hp)
      rw [List.filter_cons_of_pos (by simp), hrest]
      simp
    · have hb : b ≠ j := hnr (a, b) (List.mem_cons_self _ _)
      rw [List.filter_cons_of_neg (by simp [ha, hb])]
      refine ih j hnodup.2 ?_ (fun p hp => hnr p (List.mem_cons_of_mem _ hp))
      rw [List.map_cons] at hj
      rcases List.mem_cons.mp hj with h | h
      · exact absurd h.symm ha
      · exact h

/-- An index occurring once among the rights and never among the lefts is
matched by exactly one pair of the jump map. -/
theorem filter_pair_singleton_right :
    ∀ (bounds : List (Nat × Nat)) (j : Nat),
    (bounds.map Prod.snd).Nodup →
    j ∈ bounds.map Prod.snd →
    (∀ q ∈ bounds, q.1 ≠ j) →
    (bounds.filter (fun p => decide (p.1 = j ∨ p.2 = j))).length = 1 := by
  intro bounds
  induction bounds with
  | nil => intro j _ hj; simp at hj
  | cons q rest ih =>
    intro j hnodup hj hnl
    obtain ⟨a, b⟩ := q
    simp only [List.map_cons, List.nodup_cons] at hnodup
    by_cases hb : b = j
    · subst hb
      have hrest : rest.filter (fun p => decide (p.1 = b ∨ p.2 = b)) = [] := by
        rw [List.filter_eq_nil]
        intro p hp
        simp only [decide_eq_true_eq]
        push_neg
        constructor
        · exact hnl p (List.mem_cons_of_mem _ hp)
        · intro he
          exact hnodup.1 (he ▸ List.mem_map_of_mem Prod.snd hp)
      rw [List.filter_cons_of_pos (by simp), hrest]
      simp
    · have ha : a ≠ j := hnl (a, b) (List.mem_cons_self _ _)
      rw [List.filter_cons_of_neg (by simp [ha, hb])]
      refine ih j hnodup.2 ?_ (fun p hp => hnl p (List.mem_cons_of_mem _ hp))
      rw [List.map_cons] at hj
      rcases List.mem_cons.mp hj with h | h
      · exact absurd h.symm hb
      · exact h

/-- Consolidated facts about a successfully constructed program: jump-map
pairs point at matching brackets, lefts and rights are distinct, every
bracket index of the program occurs in the map, and the instruction
sequence ends in the sentinel. -/
theorem prog_facts (tokens : List Instr) (optimise : Bool) (prog : BfProgram)
    (h : mkProgram tokens optimise = .ok prog) :
    (∀ p ∈ prog.loop_boundaries, p.1 < p.2 ∧
        prog.instructions.get? p.1 = some (some Instr.beginLoop) ∧
        prog.instructions.get? p.2 = some (some Instr.endLoop)) ∧
      (prog.loop_boundaries.map Prod.fst).Nodup ∧
      (prog.loop_boundaries.map Prod.snd).Nodup ∧
      (∀ j, prog.instructions.get? j = some (some Instr.beginLoop) →
        j ∈ prog.loop_boundaries.map Prod.fst) ∧
      (∀ j, prog.instructions.get? j = some (some Instr.endLoop) →
        j ∈ prog.loop_boundaries.map Prod.snd) ∧
      prog.instructions.getLast? = some none := by
  obtain ⟨ts, hinstr, hb⟩ := mkProgram_spec tokens optimise prog h
  obtain ⟨hpairs, hfst, hsnd, hcb, hce⟩ := makeBounds_spec ts prog.loop_boundaries hb
  refine ⟨?_, hfst, hsnd, ?_, ?_, ?_⟩
  · intro p hp
    exact ⟨(hpairs p hp).1, by rw [hinstr, shape_get]; exact (hpairs p hp).2.1,
      by rw [hinstr, shape_get]; exact (hpairs p hp).2.2⟩
  · intro j hj
    rw [hinstr, shape_get] at hj
    exact hcb j hj
  · intro j hj
    rw [hinstr, shape_get] at hj
    exact hce j hj
  · rw [hinstr]
    exact List.getLast?_concat _

/-- A left index of a validated jump map never occurs as a right index,
and vice versa. -/
theorem prog_left_ne_right (prog : BfProgram)
    (hpair : ∀ p ∈ prog.loop_boundaries, p.1 < p.2 ∧
        prog.instructions.get? p.1 = some (some Instr.beginLoop) ∧
        prog.instructions.get? p.2 = some (some Instr.endLoop)) :
    ∀ p ∈ prog.loop_boundaries, ∀ q ∈ prog.loop_boundaries, p.1 ≠ q.2 := by
  intro p hp q hq he
  have h1 := (hpair p hp).2.1
  have h2 := (hpair q hq).2.2
  rw [he, h2] at h1
  simp at h1

/-- C2: For every successfully constructed Program, the jump map is
symmetric — for every pair `(l, r)` it contains, `get_other_bound`
returns `r` at `l` and `l` at `r` — and every `BeginLoop` index of the
program belongs to exactly one pair, as does every `EndLoop` index. -/
theorem brics_C2 (tokens : List Instr) (optimise : Bool) (prog : BfProgram)
    (h : mkProgram tokens optimise = .ok prog) :
    (∀ l r, (l, r) ∈ prog.loop_boundaries →
      get_other_bound prog.loop_boundaries l = .ok r ∧
      get_other_bound prog.loop_boundaries r = .ok l) ∧
    (∀ j, prog.instructions.get? j = some (some Instr.beginLoop) →
      (prog.loop_boundaries.filter (fun p => decide (p.1 = j ∨ p.2 = j))).length = 1) ∧
    (∀ j, prog.instructions.get? j = some (some Instr.endLoop) →
      (prog.loop_boundaries.filter (fun p => decide (p.1 = j ∨ p.2 = j))).length = 1) := by
  obtain ⟨hpair, hfst, hsnd, hcb, hce, hlast⟩ := prog_facts tokens optimise prog h
  have hlr := prog_left_ne_right prog hpair
  refine ⟨?_, ?_, ?_⟩
  · intro l r hmem
    constructor
    · exact get_other_bound_left _ l r hmem hfst (fun q hq => hlr (l, r) hmem q hq)
    · refine get_other_bound_right _ l r hmem hsnd ?_
      intro q hq he
      exact hlr q hq (l, r) hmem he.symm
  · intro j hj
    refine filter_pair_singleton_left _ j hfst (hcb j hj) ?_
    intro q hq he
    have hq2 := (hpair q hq).2.2
    rw [he, hj] at hq2
    simp at hq2
  · intro j hj
    refine filter_pair_singleton_right _ j hsnd (hce j hj) ?_
    intro q hq he
    have hq1 := (hpair q hq).2.1
    rw [he, hj] at hq1
    simp at hq1

/-- Witness for `brics_C2`: the program `+[-]` has jump map `[(1, 3)]`,
and partner lookup is symmetric on it. -/
theorem brics_C2_witness :
    get_other_bound [(1, 3)] 1 = .ok 3 ∧ get_other_bound [(1, 3)] 3 = .ok 1 := by
  have h := brics_C2 [.add, .beginLoop, .subtract, .endLoop] false
    ⟨[some .add, some .beginLoop, some .subtract, some .endLoop, none], [(1, 3)]⟩
    rfl
  exact ⟨(h.1 1 3 (by decide)).1, (h.1 1 3 (by decide)).2⟩

/-- C4: In the interpreter, at a `BeginLoop` of a validated program the
program pointer jumps to the matching `EndLoop` exactly when the current
cell is zero, at an `EndLoop` it jumps to the matching `BeginLoop`
exactly when the cell is non-zero, and every continuing dispatch
increments the program pointer by exactly 1 after any jump — so a taken
`BeginLoop` jump resumes after the `EndLoop` and a taken `EndLoop` jump
resumes at the first instruction of the body. -/
theorem brics_C4 (tokens : List Instr) (optimise : Bool) (prog : BfProgram)
    (h : mkProgram tokens optimise = .ok prog) (l r : Nat)
    (hmem : (l, r) ∈ prog.loop_boundaries) (s : ProcState) :
    (s.program_ptr = l → memGet s.mem s.data_ptr = 0 →
      step prog s = .cont { s with program_ptr := r + 1 }) ∧
    (s.program_ptr = l → memGet s.mem s.data_ptr ≠ 0 →
      step prog s = .cont { s with program_ptr := l + 1 }) ∧
    (s.program_ptr = r → memGet s.mem s.data_ptr ≠ 0 →
      step prog s = .cont { s with program_ptr := l + 1 }) ∧
    (s.program_ptr = r → memGet s.mem s.data_ptr = 0 →
      step prog s = .cont { s with program_ptr := r + 1 }) ∧
    (∀ i : Instr, prog.instructions.get? s.program_ptr = some (some i) →
      i ≠ Instr.beginLoop → i ≠ Instr.endLoop →
      ∀ s', step prog s = .cont s' → s'.program_ptr = s.program_ptr + 1) := by
  obtain ⟨hpair, hfst, hsnd, hcb, hce, hlast⟩ := prog_facts tokens optimise prog h
  have hlr := prog_left_ne_right prog hpair
  have hgobl : get_other_bound prog.loop_boundaries l = .ok r :=
    get_other_bound_left _ l r hmem hfst (fun q hq => hlr (l, r) hmem q hq)
  have hgobr : get_other_bound prog.loop_boundaries r = .ok l :=
    get_other_bound_right _ l r hmem hsnd (fun q hq he => hlr q hq (l, r) hmem he.symm)
  refine ⟨?_, ?_, ?_, ?_, ?_⟩
  · intro hpl hz
    have hget : prog.instructions.get? s.program_ptr = some (some Instr.beginLoop) := by
      rw [hpl]; exact (hpair (l, r) hmem).2.1
    have hgob : get_other_bound prog.loop_boundaries s.program_ptr = .ok r := by
      rw [hpl]; exact hgobl
    unfold step
    rw [hget]
    dsimp only
    rw [if_pos hz, hgob]
  · intro hpl hz
    have hget : prog.instructions.get? s.program_ptr = some (some Instr.beginLoop) := by
      rw [hpl]; exact (hpair (l, r) hmem).2.1
    unfold step
    rw [hget]
    dsimp only
    rw [if_neg hz, hpl]
  · intro hpr hz
    have hget : prog.instructions.get? s.program_ptr = some (some Instr.endLoop) := by
      rw [hpr]; exact (hpair (l, r) hmem).2.2
    have hgob : get_other_bound prog.loop_boundaries s.program_ptr = .ok l := by
      rw [hpr]; exact hgobr
    unfold step
    rw [hget]
    dsimp only
    rw [if_pos hz, hgob]
  · intro hpr hz
    have hget : prog.instructions.get? s.program_ptr = some (some Instr.endLoop) := by
      rw [hpr]; exact (hpair (l, r) hmem).2.2
    unfold step
    rw [hget]
    dsimp only
    rw [if_neg (by simpa using hz), hpr]
  · intro i hget hnb hne s' heq
    unfold step at heq
    rw [hget] at heq
    cases i
    case beginLoop => exact absurd rfl hnb
    case endLoop => exact absurd rfl hne
    case input =>
      dsimp only at heq
      cases hinp : s.inputLeft with
      | nil => rw [hinp] at heq; cases heq
      | cons b rest => rw [hinp] at heq; cases heq; rfl
    all_goals (dsimp only at heq; cases heq; rfl)

/-- Witness for `brics_C4`: for the program `[]` with a zeroed tape, the
`BeginLoop` at index 0 jumps to its `EndLoop` partner at index 1 and
execution continues at index 2. -/
theorem brics_C4_witness :
    step ⟨[some .beginLoop, some .endLoop, none], [(0, 1)]⟩ (initState []) =
      .cont { initState [] with program_ptr := 1 + 1 } :=
  (brics_C4 [.beginLoop, .endLoop] false
    ⟨[some .beginLoop, some .endLoop, none], [(0, 1)]⟩ rfl 0 1
    (by decide) (initState [])).1 rfl rfl

/-- In a sentinel-terminated sequence, any index holding a real
instruction is followed by at least one more index. -/
theorem nonsentinel_lt (instrs : List (Option Instr)) (j : Nat) (i : Instr)
    (hlast : instrs.getLast? = some none)
    (hget : instrs.get? j = some (some i)) :
    j + 1 < instrs.length := by
  have hj : j < instrs.length := (List.get?_eq_some.mp hget).1
  have hne : j ≠ instrs.length - 1 := by
    intro he
    rw [List.getLast?_eq_get?, ← he, hget] at hlast
    simp at hlast
  omega

/-- A single interpreter step on a validated program never fails: it
either continues with an in-range program pointer, halts at the
sentinel, or exits gracefully at end of input. -/
theorem step_no_fail (tokens : List Instr) (optimise : Bool) (prog : BfProgram)
    (h : mkProgram tokens optimise = .ok prog) (s : ProcState)
    (hpp : s.program_ptr < prog.instructions.length) :
    (∃ s', step prog s = .cont s' ∧ s'.program_ptr < prog.instructions.length) ∨
    (∃ s', step prog s = .halt s') ∨ (∃ s', step prog s = .graceful s') := by
  obtain ⟨hpair, hfst, hsnd, hcb, hce, hlast⟩ := prog_facts tokens optimise prog h
  have hlr := prog_left_ne_right prog hpair
  cases hget : prog.instructions.get? s.program_ptr with
  | none =>
    exfalso
    have := List.get?_eq_none.mp hget
    omega
  | some oi =>
    cases oi with
    | none =>
      refine Or.inr (Or.inl ⟨s, ?_⟩)
      unfold step
      rw [hget]
    | some i =>
      have hbound := nonsentinel_lt prog.instructions s.program_ptr i hlast hget
      cases i
      case beginLoop =>
        by_cases hz : memGet s.mem s.data_ptr = 0
        · have hmemf : s.program_ptr ∈ prog.loop_boundaries.map Prod.fst := hcb _ hget
          obtain ⟨p, hp, hpe⟩ := List.mem_map.mp hmemf
          obtain ⟨l, r⟩ := p
          have hpl : s.program_ptr = l := hpe.symm
          have hgob : get_other_bound prog.loop_boundaries s.program_ptr = .ok r := by
            rw [hpl]
            exact get_other_bound_left _ l r hp hfst (fun q hq => hlr (l, r) hp q hq)
          refine Or.inl ⟨{ s with program_ptr := r + 1 }, ?_, ?_⟩
          · unfold step
            rw [hget]
            dsimp only
            rw [if_pos hz, hgob]
          · exact nonsentinel_lt prog.instructions r Instr.endLoop hlast (hpair (l, r) hp).2.2
        · refine Or.inl ⟨{ s with program_ptr := s.program_ptr + 1 }, ?_, hbound⟩
          unfold step
          rw [hget]
          dsimp only
          rw [if_neg hz]
      case endLoop =>
        by_cases hz : memGet s.mem s.data_ptr = 0
        · refine Or.inl ⟨{ s with program_ptr := s.program_ptr + 1 }, ?_, hbound⟩
          unfold step
          rw [hget]
          dsimp only
          rw [if_neg (by simpa using hz)]
        · have hmemf : s.program_ptr ∈ prog.loop_boundaries.map Prod.snd := hce _ hget
          obtain ⟨p, hp, hpe⟩ := List.mem_map.mp hmemf
          obtain ⟨l, r⟩ := p
          have hpr : s.program_ptr = r := hpe.symm
          have hgob : get_other_bound prog.loop_boundaries s.program_ptr = .ok l := by
            rw [hpr]
            exact get_other_bound_right _ l r hp hsnd
              (fun q hq he => hlr q hq (l, r) hp he.symm)
          refine Or.inl ⟨{ s with program_ptr := l + 1 }, ?_, ?_⟩
          · unfold step
            rw [hget]
            dsimp only
            rw [if_pos hz, hgob]
          · exact nonsentinel_lt prog.instructions l Instr.beginLoop hlast (hpair (l, r) hp).2.1
      case input =>
        cases hinp : s.inputLeft with
        | nil =>
          refine Or.inr (Or.inr ⟨s, ?_⟩)
          unfold step
          rw [hget]
          dsimp only
          rw [hinp]
        | cons b rest =>
          refine Or.inl ⟨{ s with
              program_ptr := s.program_ptr + 1,
              mem := memSet s.mem s.data_ptr (b : Int),
              inputLeft := rest }, ?_, hbound⟩
          unfold step
          rw [hget]
          dsimp only
          rw [hinp]
      case next =>
        refine Or.inl ⟨{ s with
            program_ptr := s.program_ptr + 1, data_ptr := s.data_ptr + 1 }, ?_, hbound⟩
        unfold step
        rw [hget]
      case previous =>
        refine Or.inl ⟨{ s with
            program_ptr := s.program_ptr + 1, data_ptr := s.data_ptr - 1 }, ?_, hbound⟩
        unfold step
        rw [hget]
      case add =>
        refine Or.inl ⟨{ s with
            program_ptr := s.program_ptr + 1,
            mem := memSet s.mem s.data_ptr ((memGet s.mem s.data_ptr : Int) + 1) }, ?_, hbound⟩
        unfold step
        rw [hget]
      case subtract =>
        refine Or.inl ⟨{ s with
            program_ptr := s.program_ptr + 1,
            mem := memSet s.mem s.data_ptr ((memGet s.mem s.data_ptr : Int) - 1) }, ?_, hbound⟩
        unfold step
        rw [hget]
      case output =>
        refine Or.inl ⟨{ s with
            program_ptr := s.program_ptr + 1,
            outputSoFar := s.outputSoFar ++ [memGet s.mem s.data_ptr] }, ?_, hbound⟩
        unfold step
        rw [hget]

/-- A bounded run of a validated program from an in-range program pointer
never reports `BfRuntimeError`. -/
theorem runFrom_no_fail (tokens : List Instr) (optimise : Bool) (prog : BfProgram)
    (h : mkProgram tokens optimise = .ok prog) :
    ∀ (fuel : Nat) (s : ProcState), s.program_ptr < prog.instructions.length →
    (runFrom prog fuel s).isFailed = false := by
  intro fuel
  induction fuel with
  | zero => intro s hpp; rfl
  | succ fuel ih =>
    intro s hpp
    rcases step_no_fail tokens optimise prog h s hpp with ⟨s', hs', hb⟩ | ⟨s', hs'⟩ | ⟨s', hs'⟩
    · unfold runFrom
      rw [hs']
      exact ih s' hb
    · unfold runFrom
      rw [hs']
      rfl
    · unfold runFrom
      rw [hs']
      rfl

/-- C9: For every successfully constructed Program, the interpreter's
defensive runtime errors are unreachable — for any fuel and any input,
`run_program` never raises `BfRuntimeError` (the program pointer stays in
range and every partner lookup succeeds). -/
theorem brics_C9 (tokens : List Instr) (optimise : Bool) (prog : BfProgram)
    (h : mkProgram tokens optimise = .ok prog) (fuel : Nat) (input : List Nat) :
    (runProgram prog fuel input).isFailed = false := by
  obtain ⟨hpair, hfst, hsnd, hcb, hce, hlast⟩ := prog_facts tokens optimise prog h
  have hne : prog.instructions ≠ [] := by
    intro he
    rw [he] at hlast
    simp at hlast
  have hpos : 0 < prog.instructions.length := List.length_pos.mpr hne
  exact runFrom_no_fail tokens optimise prog h fuel (initState input) hpos

/-- Witness for `brics_C9`: running `.` (Output then sentinel) on empty
input does not fail. -/
theorem brics_C9_witness :
    (runProgram ⟨[some .output, none], []⟩ 5 []).isFailed = false :=
  brics_C9 [.output] false ⟨[some .output, none], []⟩ rfl 5 []

/-- One-step unfolding of `runFrom`. -/
theorem runFrom_succ (prog : BfProgram) (fuel : Nat) (s : ProcState) :
    runFrom prog (fuel + 1) s =
      match step prog s with
      | .cont s' => runFrom prog fuel s'
      | .halt s' => .halted s'
      | .graceful s' => .gracefulExit s'
      | .failed e => .failed e := rfl

/-- Counterexample to C5 as stated: one `MoveRight` from tape pointer
29999 leaves the interpreter's tape pointer at 30000, not at
`(29999 + 1) % 30000 = 0` — the pointer itself is never wrapped on a
move. -/
theorem brics_C5_counterexample :
    runFrom ⟨[some .next, none], []⟩ 2 ⟨0, 29999, fun _ => 0, [], []⟩ =
      .halted ⟨1, 30000, fun _ => 0, [], []⟩ ∧
    (30000 : Int) ≠ (29999 + 1) % 30000 :=
  ⟨rfl, by decide⟩

/-- Running `N - j` right-moves of the program `>^N` that remain from
program pointer `N - j` adds `j` to the data pointer, unwrapped. -/
theorem runFrom_rightMoves (N : Nat) (m0 : Nat → Nat) (inp out : List Nat) :
    ∀ (j : Nat) (p : Int), j ≤ N →
    runFrom ⟨List.replicate N (some Instr.next) ++ [none], []⟩ (j + 1)
        ⟨N - j, p, m0, inp, out⟩ =
      .halted ⟨N, p + (j : Int), m0, inp, out⟩ := by
  intro j
  induction j with
  | zero =>
    intro p _
    have hget : (List.replicate N (some Instr.next) ++ [none]).get? N = some none := by
      rw [List.get?_append_right (by simp)]
      simp
    have hstep : step ⟨List.replicate N (some Instr.next) ++ [none], []⟩
        ⟨N - 0, p, m0, inp, out⟩ = .halt ⟨N - 0, p, m0, inp, out⟩ := by
      unfold step
      dsimp only
      rw [Nat.sub_zero, hget]
    rw [runFrom_succ, hstep]
    dsimp only
    rw [Nat.sub_zero]
    norm_num
  | succ j ih =>
    intro p hj
    have hpp : N - (j + 1) < N := by omega
    have hget : (List.replicate N (some Instr.next) ++ [none]).get? (N - (j + 1)) =
        some (some Instr.next) := by
      rw [List.get?_append (by simpa using hpp)]
      rw [List.get?_eq_get (by simpa using hpp)]
      simp [List.get_replicate]
    have hstep : step ⟨List.replicate N (some Instr.next) ++ [none], []⟩
        ⟨N - (j + 1), p, m0, inp, out⟩ =
        .cont ⟨N - (j + 1) + 1, p + 1, m0, inp, out⟩ := by
      unfold step
      dsimp only
      rw [hget]
    rw [runFrom_succ, hstep]
    dsimp only
    have harith : N - (j + 1) + 1 = N - j := by omega
    rw [harith, ih (p + 1) (by omega)]
    congr 1
    push_cast
    ring_nf

/-- C5 amended: `MoveRight` adjusts the tape pointer by +1 *without*
wrapping it, so after N consecutive right-moves from pointer position `p`
the tape pointer equals `p + N` exactly; wrapping happens on every tape
access instead, which reads the dictionary key `(p + N) mod 30000`. -/
theorem brics_C5_amended (N : Nat) (p : Int) (m0 : Nat → Nat) (inp out : List Nat) :
    runFrom ⟨List.replicate N (some Instr.next) ++ [none], []⟩ (N + 1)
        ⟨0, p, m0, inp, out⟩ =
      .halted ⟨N, p + (N : Int), m0, inp, out⟩ ∧
    (∀ mem : Nat → Nat, memGet mem (p + (N : Int)) =
      mem ((p + (N : Int)).emod 30000).toNat % 256) := by
  constructor
  · have := runFrom_rightMoves N m0 inp out N p (Nat.le_refl N)
    rw [Nat.sub_self] at this
    exact this
  · intro mem
    rfl

/-- With `optimise = False`, construction is exactly validation of the
sentinel-terminated token sequence. -/
theorem mkProgram_false_eq (tokens : List Instr) :
    mkProgram tokens false =
      (match makeBounds (tokens.map some ++ [none]) with
        | .error e => .error e
        | .ok bounds => .ok ⟨tokens.map some ++ [none], bounds⟩) := rfl

/-- The jump-map scan against the two reference scans: an unmatched `]`
fails at the index `firstUnmatchedEnd` finds; otherwise a non-empty
pending stack fails at its head — the *most recently pushed* pending
`BeginLoop` — and an empty pending stack succeeds. -/
theorem scanBounds_vs_refs :
    ∀ (ts : List Instr) (idx : Nat) (stack : List Nat) (out : List (Nat × Nat)),
    (∀ i, firstUnmatchedEnd ts idx stack.length = some i →
      scanBounds (ts.map some ++ [none]) idx stack out =
        .error ⟨i, "Unmatched ] instruction"⟩) ∧
    (firstUnmatchedEnd ts idx stack.length = none →
      (∀ top rest2, pendingStarts ts idx stack = top :: rest2 →
        scanBounds (ts.map some ++ [none]) idx stack out =
          .error ⟨top, "Unmatched [ instruction"⟩) ∧
      (pendingStarts ts idx stack = [] →
        ∃ res, scanBounds (ts.map some ++ [none]) idx stack out = .ok res)) := by
  intro ts
  induction ts with
  | nil =>
    intro idx stack out
    constructor
    · intro i hi
      simp [firstUnmatchedEnd] at hi
    · intro _
      constructor
      · intro top rest2 hp
        simp only [pendingStarts] at hp
        subst hp
        simp [scanBounds]
      · intro hp
        simp only [pendingStarts] at hp
        subst hp
        exact ⟨out, by simp [scanBounds]⟩
  | cons i rest ih =>
    intro idx stack out
    cases i
    case beginLoop =>
      have hlen : (idx :: stack).length = stack.length + 1 := rfl
      constructor
      · intro k hk
        simp only [firstUnmatchedEnd] at hk
        simp only [List.map_cons, List.cons_append, scanBounds]
        exact (ih (idx + 1) (idx :: stack) out).1 k (by rw [hlen]; exact hk)
      · intro hn
        simp only [firstUnmatchedEnd] at hn
        have h2 := (ih (idx + 1) (idx :: stack) out).2 (by rw [hlen]; exact hn)
        constructor
        · intro top rest2 hp
          simp only [pendingStarts] at hp
          simp only [List.map_cons, List.cons_append, scanBounds]
          exact h2.1 top rest2 hp
        · intro hp
          simp only [pendingStarts] at hp
          simp only [List.map_cons, List.cons_append, scanBounds]
          exact h2.2 hp
    case endLoop =>
      cases stack with
      | nil =>
        constructor
        · intro k hk
          simp only [firstUnmatchedEnd, List.length_nil, if_pos] at hk
          simp only [List.map_cons, List.cons_append, scanBounds]
          rw [← Option.some.inj hk]
        · intro hn
          simp [firstUnmatchedEnd] at hn
      | cons top s =>
        have hd : (top :: s).length = s.length + 1 := rfl
        have hne : (top :: s).length ≠ 0 := by simp
        constructor
        · intro k hk
          simp only [firstUnmatchedEnd, if_neg hne] at hk
          simp only [List.map_cons, List.cons_append, scanBounds]
          refine (ih (idx + 1) s ((top, idx) :: out)).1 k ?_
          rw [hd] at hk
          simpa using hk
        · intro hn
          simp only [firstUnmatchedEnd, if_neg hne] at hn
          rw [hd] at hn
          have h2 := (ih (idx + 1) s ((top, idx) :: out)).2 (by simpa using hn)
          constructor
          · intro t rest2 hp
            simp only [pendingStarts] at hp
            simp only [List.map_cons, List.cons_append, scanBounds]
            exact h2.1 t rest2 hp
          · intro hp
            simp only [pendingStarts] at hp
            simp only [List.map_cons, List.cons_append, scanBounds]
            exact h2.2 hp
    all_goals (
      constructor
      · intro k hk
        simp only [firstUnmatchedEnd] at hk
        simp only [List.map_cons, List.cons_append, scanBounds]
        exact (ih (idx + 1) stack out).1 k hk
      · intro hn
        simp only [firstUnmatchedEnd] at hn
        have h2 := (ih (idx + 1) stack out).2 hn
        constructor
        · intro top rest2 hp
          simp only [pendingStarts] at hp
          simp only [List.map_cons, List.cons_append, scanBounds]
          exact h2.1 top rest2 hp
        · intro hp
          simp only [pendingStarts] at hp
          simp only [List.map_cons, List.cons_append, scanBounds]
          exact h2.2 hp)

/-- Counterexample to C3 as stated: for the source `[[` the error carries
index 1 — the most recently pushed pending `BeginLoop` (`stack.pop()`
pops the newest element) — not the oldest pushed index 0 that the claim
specifies. -/
theorem brics_C3_counterexample :
    mkProgram [Instr.beginLoop, Instr.beginLoop] false =
      .error ⟨1, "Unmatched [ instruction"⟩ ∧ (1 : Nat) ≠ 0 :=
  ⟨rfl, by decide⟩

/-- C3 amended: Program construction fails with `ParsingError` exactly
when brackets are unbalanced; for a sequence containing an `EndLoop` with
no pending `BeginLoop` the error carries the index of the first such
`EndLoop`, and for a sequence whose scan ends with pending `BeginLoop`s
the error carries the *most recently pushed* (innermost) pending
`BeginLoop` index — in particular `[` alone still fails at index 0. -/
theorem brics_C3 (tokens : List Instr) :
    (∀ i, firstUnmatchedEnd tokens 0 0 = some i →
      mkProgram tokens false = .error ⟨i, "Unmatched ] instruction"⟩) ∧
    (firstUnmatchedEnd tokens 0 0 = none →
      (∀ top rest2, pendingStarts tokens 0 [] = top :: rest2 →
        mkProgram tokens false = .error ⟨top, "Unmatched [ instruction"⟩) ∧
      (pendingStarts tokens 0 [] = [] →
        ∃ prog, mkProgram tokens false = .ok prog)) := by
  have href := scanBounds_vs_refs tokens 0 [] []
  constructor
  · intro i hi
    rw [mkProgram_false_eq]
    have := href.1 i (by simpa using hi)
    unfold makeBounds
    rw [this]
  · intro hn
    have h2 := href.2 (by simpa using hn)
    constructor
    · intro top rest2 hp
      rw [mkProgram_false_eq]
      have := h2.1 top rest2 hp
      unfold makeBounds
      rw [this]
    · intro hp
      obtain ⟨res, hres⟩ := h2.2 hp
      rw [mkProgram_false_eq]
      unfold makeBounds
      rw [hres]
      exact ⟨_, rfl⟩

/-- Witness for `brics_C3`: the single-instruction source `[` fails at
index 0 (its only pending `BeginLoop`). -/
theorem brics_C3_witness :
    mkProgram [Instr.beginLoop] false = .error ⟨0, "Unmatched [ instruction"⟩ :=
  ((brics_C3 [Instr.beginLoop]).2 rfl).1 0 [] rfl

/-- One-step unfolding of `trimHeadersFuel`. -/
theorem trimHeadersFuel_succ (fuel : Nat) (instrs : List (Option Instr)) :
    trimHeadersFuel (fuel + 1) instrs =
      match trimHeaderOnce instrs with
      | .error e => some (.error e)
      | .ok none => some (.ok instrs)
      | .ok (some rest) => trimHeadersFuel fuel rest := rfl

/-- C7: the header-trimming pass always terminates (fuel `length + 1`
never runs out), each successful step removes exactly the instructions up
to and including the matching `EndLoop` of the first top-level pair when
it begins at index 0 and continues on the remainder, and its result is a
fixed point: re-applying the pass changes nothing, the surviving
instructions are a suffix of the input (renumbered from 0 by the drop),
and no complete top-level bracket pair of the result starts at index 0. -/
theorem brics_C7 :
    (∀ instrs : List (Option Instr), trimHeaders instrs ≠ none) ∧
    (∀ (instrs : List (Option Instr)) (ri : Nat),
      getFirstBounds instrs = .ok (some (0, ri)) →
      trimHeaders instrs = trimHeaders (instrs.drop (ri + 1))) ∧
    (∀ instrs r : List (Option Instr), trimHeaders instrs = some (.ok r) →
      trimHeaders r = some (.ok r) ∧ r.IsSuffix instrs ∧
      ∀ ri, getFirstBounds r ≠ .ok (some (0, ri))) := by
  refine ⟨?_, ?_, ?_⟩
  · intro instrs
    exact trimHeadersFuel_total (instrs.length + 1) instrs (Nat.lt_succ_self _)
  · intro instrs ri hg
    have honce : trimHeaderOnce instrs = .ok (some (instrs.drop (ri + 1))) := by
      unfold trimHeaderOnce
      rw [hg]
      dsimp only
      rw [if_neg (by simp)]
    have hshrink := trimHeaderOnce_shrink instrs _ honce
    unfold trimHeaders
    rw [trimHeadersFuel_succ]
    rw [honce]
    exact trimHeadersFuel_irrel instrs.length ((instrs.drop (ri + 1)).length + 1)
      (instrs.drop (ri + 1)) (by omega) (Nat.lt_succ_self _)
  · intro instrs r h
    have hfix := trimHeadersFuel_fix _ instrs r h
    refine ⟨?_, trimHeadersFuel_suffix _ instrs r h, ?_⟩
    · unfold trimHeaders
      rw [trimHeadersFuel_succ, hfix]
    · intro ri hge
      unfold trimHeaderOnce at hfix
      rw [hge] at hfix
      dsimp only at hfix
      rw [if_neg (by simp)] at hfix
      simp at hfix

/-- Witness for `brics_C7`: trimming `[]+` removes the leading pair,
leaving `+`, which is a fixed point and a suffix of the input. -/
theorem brics_C7_witness :
    trimHeaders [some Instr.add, none] = some (.ok [some Instr.add, none]) ∧
    List.IsSuffix [some Instr.add, none]
      [some Instr.beginLoop, some Instr.endLoop, some Instr.add, none] :=
  ⟨(brics_C7.2.2 [some Instr.beginLoop, some Instr.endLoop, some Instr.add, none]
      [some Instr.add, none] rfl).1,
   (brics_C7.2.2 [some Instr.beginLoop, some Instr.endLoop, some Instr.add, none]
      [some Instr.add, none] rfl).2.1⟩

/-- `findTok` returns a table entry whose token is exactly the upcoming
characters. -/
theorem findTok_mem :
    ∀ (table : List (Instr × List Char)) (text : List Char) (i : Instr) (tok : List Char),
    findTok table text = some (i, tok) →
    (i, tok) ∈ table ∧ text.take tok.length = tok := by
  intro table
  induction table with
  | nil => intro text i tok h; simp [findTok] at h
  | cons q rest ih =>
    intro text i tok h
    obtain ⟨j, tk⟩ := q
    unfold findTok at h
    by_cases hm : text.take tk.length = tk
    · rw [if_pos hm] at h
      simp only [Option.some.injEq] at h
      obtain ⟨h1, h2⟩ := Prod.mk.inj h.symm
      subst h1
      subst h2
      exact ⟨List.mem_cons_self _ _, hm⟩
    · rw [if_neg hm] at h
      have := ih text i tok h
      exact ⟨List.mem_cons_of_mem _ this.1, this.2⟩

/-- `findTok` returns the *first* matching entry in declared order: all
earlier entries fail to match. -/
theorem findTok_first :
    ∀ (table : List (Instr × List Char)) (text : List Char) (i : Instr) (tok : List Char),
    findTok table text = some (i, tok) →
    ∃ pre suf, table = pre ++ (i, tok) :: suf ∧
      ∀ q ∈ pre, text.take q.2.length ≠ q.2 := by
  intro table
  induction table with
  | nil => intro text i tok h; simp [findTok] at h
  | cons q rest ih =>
    intro text i tok h
    obtain ⟨j, tk⟩ := q
    unfold findTok at h
    by_cases hm : text.take tk.length = tk
    · rw [if_pos hm] at h
      simp only [Option.some.injEq] at h
      obtain ⟨h1, h2⟩ := Prod.mk.inj h.symm
      subst h1
      subst h2
      exact ⟨[], rest, rfl, by intro q hq; simp at hq⟩
    · rw [if_neg hm] at h
      obtain ⟨pre, suf, hsplit, hpre⟩ := ih text i tok h
      refine ⟨(j, tk) :: pre, suf, by rw [hsplit]; rfl, ?_⟩
      intro q hq
      rcases List.mem_cons.mp hq with h2 | h2
      · rw [h2]
        exact hm
      · exact hpre q h2

/-- With non-empty tokens, the tokenizer's fuel `text.length + 1` never
runs out (each iteration consumes at least one character). -/
theorem tokenizeFuel_ne_none (table : List (Instr × List Char))
    (hne : ∀ p ∈ table, p.2 ≠ []) :
    ∀ (fuel : Nat) (text : List Char), text.length < fuel →
    tokenizeFuel fuel table text ≠ none := by
  intro fuel
  induction fuel with
  | zero => intro text h; omega
  | succ fuel ih =>
    intro text h
    cases text with
    | nil => simp [tokenizeFuel]
    | cons c rest =>
      cases hf : findTok table (c :: rest) with
      | some p =>
        obtain ⟨i, tok⟩ := p
        have hmem := findTok_mem table (c :: rest) i tok hf
        have htok : tok ≠ [] := hne (i, tok) hmem.1
        have hlen : 1 ≤ tok.length := by
          cases tok with
          | nil => exact absurd rfl htok
          | cons t ts => simp
        simp only [tokenizeFuel, hf]
        intro hcon
        have hinner := Option.map_eq_none'.mp hcon
        refine ih ((c :: rest).drop tok.length) ?_ hinner
        rw [List.length_drop]
        simp only [List.length_cons] at h ⊢
        omega
      | none =>
        simp only [tokenizeFuel, hf]
        refine ih ((c :: rest).drop 1) ?_
        rw [List.length_drop]
        simp only [List.length_cons] at h ⊢
        omega

/-- With non-empty tokens, any two sufficient fuels agree. -/
theorem tokenizeFuel_irrel (table : List (Instr × List Char))
    (hne : ∀ p ∈ table, p.2 ≠ []) :
    ∀ (f g : Nat) (text : List Char), text.length < f → text.length < g →
    tokenizeFuel f table text = tokenizeFuel g table text := by
  intro f
  induction f with
  | zero => intro g text h; omega
  | succ f ih =>
    intro g text hf hg
    cases g with
    | zero => omega
    | succ g =>
      cases text with
      | nil => simp [tokenizeFuel]
      | cons c rest =>
        cases hfind : findTok table (c :: rest) with
        | some p =>
          obtain ⟨i, tok⟩ := p
          have hmem := findTok_mem table (c :: rest) i tok hfind
          have htok : tok ≠ [] := hne (i, tok) hmem.1
          have hlen : 1 ≤ tok.length := by
            cases tok with
            | nil => exact absurd rfl htok
            | cons t ts => simp
          simp only [tokenizeFuel, hfind]
          have hd : ((c :: rest).drop tok.length).length < f := by
            rw [List.length_drop]
            simp only [List.length_cons] at hf ⊢
            omega
          have hd' : ((c :: rest).drop tok.length).length < g := by
            rw [List.length_drop]
            simp only [List.length_cons] at hg ⊢
            omega
          rw [ih g ((c :: rest).drop tok.length) hd hd']
        | none =>
          simp only [tokenizeFuel, hfind]
          have hd : ((c :: rest).drop 1).length < f := by
            rw [List.length_drop]
            simp only [List.length_cons] at hf ⊢
            omega
          have hd' : ((c :: rest).drop 1).length < g := by
            rw [List.length_drop]
            simp only [List.length_cons] at hg ⊢
            omega
          exact ih g ((c :: rest).drop 1) hd hd'

/-- One-step unfolding of `tokenizeFuel` on a non-empty text. -/
theorem tokenizeFuel_succ_cons (fuel : Nat) (table : List (Instr × List Char))
    (c : Char) (rest : List Char) :
    tokenizeFuel (fuel + 1) table (c :: rest) =
      match findTok table (c :: rest) with
      | some (i, tok) =>
        (tokenizeFuel fuel table ((c :: rest).drop tok.length)).map (fun out => i :: out)
      | none => tokenizeFuel fuel table ((c :: rest).drop 1) := rfl

/-- C6: for every table of non-empty tokens and every input text, the
tokenizer terminates with a finite sequence; at each cursor position the
pairs are tried in declared order, the first whose token exactly matches
the upcoming characters is emitted (never a partial match — the full
token must be present) with the cursor advanced past the token, and when
no pair matches the cursor advances by exactly one character emitting
nothing. -/
theorem brics_C6 (table : List (Instr × List Char)) (text : List Char)
    (h : ∀ p ∈ table, p.2 ≠ []) :
    text_to_instrs table text ≠ none ∧
    (∀ (i : Instr) (tok : List Char), findTok table text = some (i, tok) →
      (i, tok) ∈ table ∧ text.take tok.length = tok ∧ tok.length ≤ text.length ∧
      (∃ pre suf, table = pre ++ (i, tok) :: suf ∧
        ∀ q ∈ pre, text.take q.2.length ≠ q.2) ∧
      text_to_instrs table text =
        (text_to_instrs table (text.drop tok.length)).map (fun out => i :: out)) ∧
    (text ≠ [] → findTok table text = none →
      text_to_instrs table text = text_to_instrs table (text.drop 1)) := by
  refine ⟨tokenizeFuel_ne_none table h _ text (Nat.lt_succ_self _), ?_, ?_⟩
  · intro i tok hf
    have hmem := findTok_mem table text i tok hf
    have htl : tok.length ≤ text.length := by
      have := congrArg List.length hmem.2
      rw [List.length_take] at this
      omega
    refine ⟨hmem.1, hmem.2, htl, findTok_first table text i tok hf, ?_⟩
    cases text with
    | nil =>
      exfalso
      have htok : tok ≠ [] := h (i, tok) hmem.1
      have : tok.length = 0 := by simpa using htl
      exact htok (List.length_eq_zero.mp this)
    | cons c rest =>
      have htok : tok ≠ [] := h (i, tok) hmem.1
      have hlen : 1 ≤ tok.length := by
        cases tok with
        | nil => exact absurd rfl htok
        | cons t ts => simp
      have heq := tokenizeFuel_irrel table h (c :: rest).length
        (((c :: rest).drop tok.length).length + 1) ((c :: rest).drop tok.length)
        (by rw [List.length_drop]; simp only [List.length_cons]; omega)
        (Nat.lt_succ_self _)
      show tokenizeFuel ((c :: rest).length + 1) table (c :: rest) = _
      rw [tokenizeFuel_succ_cons, hf]
      dsimp only
      rw [heq]
      rfl
  · intro hne hf
    cases text with
    | nil => exact absurd rfl hne
    | cons c rest =>
      have heq := tokenizeFuel_irrel table h (c :: rest).length
        (((c :: rest).drop 1).length + 1) ((c :: rest).drop 1)
        (by rw [List.length_drop]; simp only [List.length_cons]; omega)
        (Nat.lt_succ_self _)
      show tokenizeFuel ((c :: rest).length + 1) table (c :: rest) = _
      rw [tokenizeFuel_succ_cons, hf]
      rw [heq]
      rfl

/-- Witness for `brics_C6`: tokenizing `+a<` under the standard table
terminates. -/
theorem brics_C6_witness :
    text_to_instrs standardRelex [Char.ofNat 43, Char.ofNat 97, Char.ofNat 60] ≠ none :=
  (brics_C6 standardRelex [Char.ofNat 43, Char.ofNat 97, Char.ofNat 60] (by decide)).1

/-- Every instruction is in the canonical enumeration. -/
theorem mem_allInstructions (i : Instr) : i ∈ allInstructions := by
  cases i <;> simp [allInstructions]

/-- Comparing quoted single characters is comparing their code points:
the quote characters cancel in the lexicographic comparison. -/
theorem strLe_quote (c d : Char) :
    strLe (quoteChar c) (quoteChar d) = decide (c.toNat ≤ d.toNat) := by
  have h39 : ¬ (Char.ofNat 39).toNat < (Char.ofNat 39).toNat := by omega
  unfold quoteChar
  simp only [strLe, if_neg h39]
  rcases Nat.lt_trichotomy c.toNat d.toNat with h | h | h
  · rw [if_pos h]
    exact (decide_eq_true (by omega)).symm
  · rw [if_neg (by omega), if_neg (by omega)]
    exact (decide_eq_true (by omega)).symm
  · rw [if_neg (by omega), if_pos h]
    exact (decide_eq_false (by omega)).symm

/-- Inserting a quoted character into a sorted list of quoted characters
mirrors inserting the character itself. -/
theorem insertStr_quote_comm (c : Char) (l : List Char) :
    insertStr (quoteChar c) (l.map quoteChar) = (insertChar c l).map quoteChar := by
  induction l with
  | nil => rfl
  | cons d rest ih =>
    simp only [List.map_cons, insertStr, insertChar, strLe_quote]
    by_cases h : c.toNat ≤ d.toNat
    · rw [if_pos (by simpa using h), if_pos h]
      simp
    · rw [if_neg (by simpa using h), if_neg h]
      simp only [List.map_cons]
      rw [ih]

/-- Sorting the quoted canonical characters (what the code does) agrees
with quoting the sorted canonical characters (what the spec says). -/
theorem sortStrs_quote_comm (l : List Char) :
    sortStrs (l.map quoteChar) = (sortChars l).map quoteChar := by
  induction l with
  | nil => rfl
  | cons c rest ih =>
    simp only [List.map_cons, sortStrs, sortChars]
    rw [ih, insertStr_quote_comm]

/-- The code's inexhaustiveness message equals the spec's formulation. -/
theorem relexMissingMessage_eq_spec (keys : List Instr) :
    relexMissingMessage keys = specMissingMessage keys := by
  unfold relexMissingMessage specMissingMessage
  have hmap : (missingInstrs keys).map (fun i => quoteChar i.to_char) =
      ((missingInstrs keys).map Instr.to_char).map quoteChar := by
    rw [List.map_map]
    rfl
  rw [hmap, sortStrs_quote_comm]

/-- C8: token-table construction fails with a `RelexParsingError`
carrying no line number exactly when some opcode has no mapping, and the
message enumerates precisely the missing canonical characters in sorted
order. -/
theorem brics_C8 (name : String) (imap : List (Instr × List Char)) :
    ((∃ e, mkRelex name imap = .error e) ↔
      ∃ i : Instr, (imap.map Prod.fst).contains i = false) ∧
    (∀ e, mkRelex name imap = .error e →
      e.line = none ∧ e.message = specMissingMessage (imap.map Prod.fst)) := by
  constructor
  · constructor
    · intro ⟨e, he⟩
      by_cases hmiss : missingInstrs (imap.map Prod.fst) = []
      · unfold mkRelex at he
        rw [if_pos hmiss] at he
        simp at he
      · unfold missingInstrs at hmiss
        have := (List.filter_eq_nil (l := allInstructions)).not.mp hmiss
        push_neg at this
        obtain ⟨i, _, hi⟩ := this
        refine ⟨i, ?_⟩
        simpa using hi
    · intro ⟨i, hi⟩
      have hmiss : missingInstrs (imap.map Prod.fst) ≠ [] := by
        unfold missingInstrs
        intro he
        have hni := List.filter_eq_nil.mp he i (mem_allInstructions i)
        apply hni
        rw [hi]
        rfl
      unfold mkRelex
      rw [if_neg hmiss]
      exact ⟨_, rfl⟩
  · intro e he
    by_cases hmiss : missingInstrs (imap.map Prod.fst) = []
    · unfold mkRelex at he
      rw [if_pos hmiss] at he
      simp at he
    · unfold mkRelex at he
      rw [if_neg hmiss] at he
      simp only [Except.error.injEq] at he
      rw [← he]
      exact ⟨rfl, relexMissingMessage_eq_spec _⟩

/-- Witness for `brics_C8`: a table covering 7 of the 8 instructions
(everything but `]`) fails with no line number and the spec-form message,
which names exactly the missing character `']'`. -/
theorem brics_C8_witness :
    (⟨none, relexMissingMessage
        [Instr.previous, .next, .add, .subtract, .input, .output, .beginLoop]⟩ :
      RelexParsingError).line = none ∧
    (⟨none, relexMissingMessage
        [Instr.previous, .next, .add, .subtract, .input, .output, .beginLoop]⟩ :
      RelexParsingError).message = specMissingMessage
        [Instr.previous, .next, .add, .subtract, .input, .output, .beginLoop] :=
  (brics_C8 "seven"
      [(.previous, [Char.ofNat 60]), (.next, [Char.ofNat 62]), (.add, [Char.ofNat 43]),
       (.subtract, [Char.ofNat 45]), (.input, [Char.ofNat 44]), (.output, [Char.ofNat 46]),
       (.beginLoop, [Char.ofNat 91])]).2
    ⟨none, relexMissingMessage
      [Instr.previous, .next, .add, .subtract, .input, .output, .beginLoop]⟩ rfl

/-- C1 (code-bug evidence): for the validated program `,.` (Input then
Output) run on an empty input stream, the direct interpreter exits
gracefully at end of input having written nothing, while the C source
emitted for the same program stores `getchar()`'s EOF value (-1, byte 255
in the `char` cell) and continues, writing the byte 255 — the two
consumers disagree byte-for-byte on end-of-input behaviour (shown here
even granting the C tape zero-initialized contents, a property the
emitted `char mem[30000];` does not itself guarantee for cells read
before first write). -/
theorem brics_C1_code_bug :
    mkProgram [Instr.input, Instr.output] false =
      .ok ⟨[some Instr.input, some Instr.output, none], []⟩ ∧
    (runProgram ⟨[some Instr.input, some Instr.output, none], []⟩ 5 []).finalOutput =
      some [] ∧
    cRunOutput [Instr.input, Instr.output] (fun _ => 0) 9 [] = some [255] ∧
    some ([] : List Nat) ≠ some [255] :=
  ⟨rfl, rfl, rfl, by decide⟩

/-- Overwriting an existing key in place: the updated list finds `(k, v)`
at `k` whenever some entry had key `k`. -/
theorem find?_update_self :
    ∀ (m : List (Instr × List Char)) (k : Instr) (v : List Char),
    m.any (fun p => decide (p.1 = k)) = true →
    (m.map (fun p => if p.1 = k then (k, v) else p)).find? (fun p => decide (p.1 = k)) =
      some (k, v) := by
  intro m k v hany
  induction m with
  | nil => simp at hany
  | cons q rest ih =>
    obtain ⟨a, b⟩ := q
    by_cases hak : a = k
    · simp only [List.map_cons, if_pos hak]
      exact List.find?_cons_of_pos _ (by simp)
    · simp only [List.map_cons, if_neg hak]
      rw [List.find?_cons_of_neg _ (by simpa using hak)]
      refine ih ?_
      simp only [List.any_cons, decide_eq_false hak, Bool.false_or] at hany
      exact hany

/-- Appending a fresh key: the extended list finds `(k, v)` at `k` when
no entry had key `k`. -/
theorem find?_append_fresh :
    ∀ (m : List (Instr × List Char)) (k : Instr) (v : List Char),
    m.any (fun p => decide (p.1 = k)) = false →
    (m ++ [(k, v)]).find? (fun p => decide (p.1 = k)) = some (k, v) := by
  intro m k v hany
  induction m with
  | nil =>
    simp only [List.nil_append]
    exact List.find?_cons_of_pos _ (by simp)
  | cons q rest ih =>
    obtain ⟨a, b⟩ := q
    simp only [List.any_cons, Bool.or_eq_false_iff] at hany
    simp only [List.cons_append]
    rw [List.find?_cons_of_neg _ (by simpa using hany.1)]
    exact ih (by simpa using hany.2)

/-- Updating key `k` in place leaves lookups of other keys unchanged. -/
theorem find?_update_other :
    ∀ (m : List (Instr × List Char)) (k : Instr) (v : List Char) (j : Instr), j ≠ k →
    (m.map (fun p => if p.1 = k then (k, v) else p)).find? (fun p => decide (p.1 = j)) =
      m.find? (fun p => decide (p.1 = j)) := by
  intro m k v j hjk
  have hkj : ¬ k = j := fun h => hjk h.symm
  induction m with
  | nil => simp
  | cons q rest ih =>
    obtain ⟨a, b⟩ := q
    by_cases hak : a = k
    · subst hak
      simp only [List.map_cons, if_pos rfl]
      rw [List.find?_cons_of_neg _ (by simpa using hkj),
        List.find?_cons_of_neg _ (by simpa using hkj)]
      exact ih
    · simp only [List.map_cons, if_neg hak]
      by_cases haj : a = j
      · rw [List.find?_cons_of_pos _ (by simpa using haj),
          List.find?_cons_of_pos _ (by simpa using haj)]
      · rw [List.find?_cons_of_neg _ (by simpa using haj),
          List.find?_cons_of_neg _ (by simpa using haj)]
        exact ih

/-- Appending key `k` leaves lookups of other keys unchanged. -/
theorem find?_append_other :
    ∀ (m : List (Instr × List Char)) (k : Instr) (v : List Char) (j : Instr), j ≠ k →
    (m ++ [(k, v)]).find? (fun p => decide (p.1 = j)) =
      m.find? (fun p => decide (p.1 = j)) := by
  intro m k v j hjk
  have hkj : ¬ k = j := fun h => hjk h.symm
  induction m with
  | nil =>
    simp only [List.nil_append]
    rw [List.find?_cons_of_neg _ (by simpa using hkj)]
  | cons q rest ih =>
    obtain ⟨a, b⟩ := q
    simp only [List.cons_append]
    by_cases haj : a = j
    · rw [List.find?_cons_of_pos _ (by simpa using haj),
        List.find?_cons_of_pos _ (by simpa using haj)]
    · rw [List.find?_cons_of_neg _ (by simpa using haj),
        List.find?_cons_of_neg _ (by simpa using haj)]
      exact ih

/-- Looking up the key just written into the dict yields the new value
(Python `m[k] = v` overwrites the value for an existing key, keeping its
position). -/
theorem dictGet_insert_self (m : List (Instr × List Char)) (k : Instr) (v : List Char) :
    dictGet (dictInsert m k v) k = some v := by
  unfold dictInsert dictGet
  by_cases hany : m.any (fun p => decide (p.1 = k)) = true
  · rw [if_pos hany, find?_update_self m k v hany]
  · rw [if_neg hany, find?_append_fresh m k v ?_]
    cases h : m.any (fun p => decide (p.1 = k)) with
    | false => rfl
    | true => exact absurd h hany

/-- Inserting one key does not change the lookup of another. -/
theorem dictGet_insert_other (m : List (Instr × List Char)) (k : Instr) (v : List Char)
    (j : Instr) (hjk : j ≠ k) :
    dictGet (dictInsert m k v) j = dictGet m j := by
  unfold dictInsert dictGet
  by_cases hany : m.any (fun p => decide (p.1 = k)) = true
  · rw [if_pos hany, find?_update_other m k v j hjk]
  · rw [if_neg hany, find?_append_other m k v j hjk]

/-- A present key occurs among the dict's keys. -/
theorem dictGet_ne_none_contains (m : List (Instr × List Char)) (i : Instr)
    (h : dictGet m i ≠ none) : (m.map Prod.fst).contains i = true := by
  unfold dictGet at h
  cases hf : m.find? (fun p => decide (p.1 = i)) with
  | none => rw [hf] at h; simp at h
  | some p =>
    have hmem := List.mem_of_find?_eq_some hf
    have hpred := List.find?_some hf
    have hm : p.1 ∈ m.map Prod.fst := List.mem_map_of_mem Prod.fst hmem
    rw [of_decide_eq_true hpred] at hm
    simpa using hm

/-- One-step unfolding of `buildRelexMap`. -/
theorem buildRelexMap_cons (l : Nat × (List Char × List Char × List Char))
    (rest : List (Nat × (List Char × List Char × List Char)))
    (m : List (Instr × List Char)) :
    buildRelexMap (l :: rest) m =
      (if (pyStrip l.2.2.2).length = 0 then
        .error ⟨some (l.1 + 1), "Missing relex value"⟩
      else
        match Instr.from_char l.2.1 with
        | none => .error ⟨some (l.1 + 1), "Attempted to map to unknown instruction key"⟩
        | some instr => buildRelexMap rest (dictInsert m instr (pyStrip l.2.2.2))) := rfl

/-- `buildRelexMap` processes an appended line list sequentially. -/
theorem buildRelexMap_append :
    ∀ (xs ys : List (Nat × (List Char × List Char × List Char)))
      (m : List (Instr × List Char)),
    buildRelexMap (xs ++ ys) m =
      (match buildRelexMap xs m with
        | .error e => .error e
        | .ok m1 => buildRelexMap ys m1) := by
  intro xs
  induction xs with
  | nil => intro ys m; rfl
  | cons l rest ih =>
    intro ys m
    rw [List.cons_append, buildRelexMap_cons, buildRelexMap_cons]
    by_cases hlen : (pyStrip l.2.2.2).length = 0
    · rw [if_pos hlen, if_pos hlen]
    · rw [if_neg hlen, if_neg hlen]
      cases hkey : Instr.from_char l.2.1 with
      | none => rfl
      | some j =>
        dsimp only
        exact ih ys (dictInsert m j (pyStrip l.2.2.2))

/-- Lines that never map instruction `i` leave its lookup unchanged. -/
theorem buildRelexMap_untouched (i : Instr) :
    ∀ (lines : List (Nat × (List Char × List Char × List Char)))
      (m m' : List (Instr × List Char)),
    buildRelexMap lines m = .ok m' →
    (∀ l ∈ lines, Instr.from_char l.2.1 ≠ some i) →
    dictGet m' i = dictGet m i := by
  intro lines
  induction lines with
  | nil =>
    intro m m' h _
    cases h
    rfl
  | cons l rest ih =>
    intro m m' h hno
    rw [buildRelexMap_cons] at h
    by_cases hlen : (pyStrip l.2.2.2).length = 0
    · rw [if_pos hlen] at h; simp at h
    · rw [if_neg hlen] at h
      cases hkey : Instr.from_char l.2.1 with
      | none => rw [hkey] at h; simp at h
      | some j =>
        rw [hkey] at h
        dsimp only at h
        have hji : j ≠ i := fun he => hno l (List.mem_cons_self _ _) (he ▸ hkey)
        rw [ih _ _ h (fun l' hl' => hno l' (List.mem_cons_of_mem _ hl'))]
        exact dictGet_insert_other m j _ i (fun he => hji he.symm)

/-- All-valid directive lines build a map without error — in particular,
duplicate keys are not an error. -/
theorem buildRelexMap_ok :
    ∀ (lines : List (Nat × (List Char × List Char × List Char)))
      (m : List (Instr × List Char)),
    (∀ l ∈ lines, (pyStrip l.2.2.2).length ≠ 0 ∧ Instr.from_char l.2.1 ≠ none) →
    ∃ m', buildRelexMap lines m = .ok m' := by
  intro lines
  induction lines with
  | nil => intro m _; exact ⟨m, rfl⟩
  | cons l rest ih =>
    intro m hv
    have hl := hv l (List.mem_cons_self _ _)
    rw [buildRelexMap_cons, if_neg hl.1]
    cases hkey : Instr.from_char l.2.1 with
    | none => exact absurd hkey hl.2
    | some j =>
      dsimp only
      exact ih (dictInsert m j (pyStrip l.2.2.2)) (fun l' hl' => hv l' (List.mem_cons_of_mem _ hl'))

/-- After a successful build, every instruction named by some line (or
already present) has an entry. -/
theorem buildRelexMap_covers (i : Instr) :
    ∀ (lines : List (Nat × (List Char × List Char × List Char)))
      (m m' : List (Instr × List Char)),
    buildRelexMap lines m = .ok m' →
    ((∃ l ∈ lines, Instr.from_char l.2.1 = some i) ∨ dictGet m i ≠ none) →
    dictGet m' i ≠ none := by
  intro lines
  induction lines with
  | nil =>
    intro m m' h hyp
    cases h
    rcases hyp with ⟨l, hl, _⟩ | h2
    · simp at hl
    · exact h2
  | cons l rest ih =>
    intro m m' h hyp
    rw [buildRelexMap_cons] at h
    by_cases hlen : (pyStrip l.2.2.2).length = 0
    · rw [if_pos hlen] at h; simp at h
    · rw [if_neg hlen] at h
      cases hkey : Instr.from_char l.2.1 with
      | none => rw [hkey] at h; simp at h
      | some j =>
        rw [hkey] at h
        dsimp only at h
        rcases hyp with ⟨l', hl', hkey'⟩ | h2
        · rcases List.mem_cons.mp hl' with he | he
          · have hji : j = i := by
              rw [he] at hkey'
              rw [hkey'] at hkey
              exact (Option.some.inj hkey).symm
            subst hji
            refine ih _ _ h (Or.inr ?_)
            rw [dictGet_insert_self]
            simp
          · exact ih _ _ h (Or.inl ⟨l', he, hkey'⟩)
        · refine ih _ _ h (Or.inr ?_)
          by_cases hji : j = i
          · subst hji
            rw [dictGet_insert_self]
            simp
          · rw [dictGet_insert_other m j _ i (fun he => hji he.symm)]
            exact h2

/-- C10: a definition file that maps the same canonical instruction
character on more than one line does not fail for that reason — given all
lines parse individually and all 8 opcodes are covered, construction
succeeds and, for each instruction, the token of the *last* line mapping
it wins, overwriting all earlier ones. -/
theorem brics_C10 (name : String) (lines : List (List Char))
    (hvalid : ∀ l ∈ directiveLines lines,
      (pyStrip l.2.2.2).length ≠ 0 ∧ Instr.from_char l.2.1 ≠ none)
    (hcover : ∀ i : Instr, ∃ l ∈ directiveLines lines, Instr.from_char l.2.1 = some i) :
    ∃ rlx : Relex, from_relex_lines name lines = .ok rlx ∧
      ∀ (i : Instr) (t : List Char)
        (L1 L2 : List (Nat × (List Char × List Char × List Char)))
        (l : Nat × (List Char × List Char × List Char)),
        directiveLines lines = L1 ++ l :: L2 →
        Instr.from_char l.2.1 = some i → pyStrip l.2.2.2 = t →
        (∀ l' ∈ L2, Instr.from_char l'.2.1 ≠ some i) →
        dictGet rlx.instruction_map i = some t := by
  obtain ⟨m', hm'⟩ := buildRelexMap_ok (directiveLines lines) [] hvalid
  have hcont : ∀ i : Instr, (m'.map Prod.fst).contains i = true := by
    intro i
    refine dictGet_ne_none_contains m' i ?_
    exact buildRelexMap_covers i (directiveLines lines) [] m' hm' (Or.inl (hcover i))
  have hmiss : missingInstrs (m'.map Prod.fst) = [] := by
    unfold missingInstrs
    rw [List.filter_eq_nil]
    intro i _
    rw [hcont i]
    decide
  refine ⟨⟨name, m'⟩, ?_, ?_⟩
  · unfold from_relex_lines
    rw [hm']
    dsimp only
    unfold mkRelex
    rw [if_pos hmiss]
  · intro i t L1 L2 l hsplit hkey htok hno
    have hlmem : l ∈ directiveLines lines := by
      rw [hsplit]
      exact List.mem_append_right _ (List.mem_cons_self _ _)
    have hlen : ¬ (pyStrip l.2.2.2).length = 0 := (hvalid l hlmem).1
    rw [hsplit, buildRelexMap_append] at hm'
    cases h1 : buildRelexMap L1 [] with
    | error e => rw [h1] at hm'; simp at hm'
    | ok m1 =>
      rw [h1] at hm'
      dsimp only at hm'
      rw [buildRelexMap_cons, if_neg hlen, hkey] at hm'
      dsimp only at hm'
      rw [htok] at hm'
      have hrest := buildRelexMap_untouched i L2 (dictInsert m1 i t) m' hm' hno
      rw [hrest, dictGet_insert_self]

/-- Witness for `brics_C10`: a definition file that maps `>` twice (to
`a` on its first line and to `z` on its last) is accepted, and the last
line's token wins. -/
theorem brics_C10_witness :
    ∃ rlx : Relex, from_relex_lines "t"
        [[Char.ofNat 62, Char.ofNat 32, Char.ofNat 97],
         [Char.ofNat 60, Char.ofNat 32, Char.ofNat 98],
         [Char.ofNat 43, Char.ofNat 32, Char.ofNat 99],
         [Char.ofNat 45, Char.ofNat 32, Char.ofNat 100],
         [Char.ofNat 44, Char.ofNat 32, Char.ofNat 101],
         [Char.ofNat 46, Char.ofNat 32, Char.ofNat 102],
         [Char.ofNat 91, Char.ofNat 32, Char.ofNat 103],
         [Char.ofNat 93, Char.ofNat 32, Char.ofNat 104],
         [Char.ofNat 62, Char.ofNat 32, Char.ofNat 122]] = .ok rlx ∧
      ∀ (i : Instr) (t : List Char)
        (L1 L2 : List (Nat × (List Char × List Char × List Char)))
        (l : Nat × (List Char × List Char × List Char)),
        directiveLines
          [[Char.ofNat 62, Char.ofNat 32, Char.ofNat 97],
           [Char.ofNat 60, Char.ofNat 32, Char.ofNat 98],
           [Char.ofNat 43, Char.ofNat 32, Char.ofNat 99],
           [Char.ofNat 45, Char.ofNat 32, Char.ofNat 100],
           [Char.ofNat 44, Char.ofNat 32, Char.ofNat 101],
           [Char.ofNat 46, Char.ofNat 32, Char.ofNat 102],
           [Char.ofNat 91, Char.ofNat 32, Char.ofNat 103],
           [Char.ofNat 93, Char.ofNat 32, Char.ofNat 104],
           [Char.ofNat 62, Char.ofNat 32, Char.ofNat 122]] = L1 ++ l :: L2 →
        Instr.from_char l.2.1 = some i → pyStrip l.2.2.2 = t →
        (∀ l' ∈ L2, Instr.from_char l'.2.1 ≠ some i) →
        dictGet rlx.instruction_map i = some t :=
  brics_C10 "t"
    [[Char.ofNat 62, Char.ofNat 32, Char.ofNat 97],
     [Char.ofNat 60, Char.ofNat 32, Char.ofNat 98],
     [Char.ofNat 43, Char.ofNat 32, Char.ofNat 99],
     [Char.ofNat 45, Char.ofNat 32, Char.ofNat 100],
     [Char.ofNat 44, Char.ofNat 32, Char.ofNat 101],
     [Char.ofNat 46, Char.ofNat 32, Char.ofNat 102],
     [Char.ofNat 91, Char.ofNat 32, Char.ofNat 103],
     [Char.ofNat 93, Char.ofNat 32, Char.ofNat 104],
     [Char.ofNat 62, Char.ofNat 32, Char.ofNat 122]] (by decide) (by decide)

end Brics
